import Mathlib

/-!
# Media data model of `av.go`: sample formats, channel layouts, audio frames

A shallow embedding of the value types and operations of `src/av.go`.

Conventions of the embedding:

* Go `int` is modelled by `Int` together with the explicit two's complement
  wrap `wrapInt` of a 64-bit machine integer; `uint64` is modelled by `Nat`
  with an explicit `% 2 ^ 64`.
* A Go `[]byte` is modelled by the bytes it exposes (`bytes`) and the rest of
  its backing array up to its capacity (`spare`), because a Go slice
  expression is bounds-checked against the capacity, not the length.
* A run-time panic is an `Except.error`.
* `AudioFrame` describes a frame by the values of its planes.
  `AudioFrame.Slice` on values is exact, because a slice expression reads and
  writes no byte (`sliceMem_view`). `AudioFrame.Concat` on values is what
  `Concat` returns when no in-place `append` stores into bytes of another
  plane (`concatMem_value`).
* `append` writes in place when the capacity suffices, so frames whose planes
  may share a backing array are modelled in byte memory: `Heap`, `SliceHdr`
  and `FrameRef.ConcatMem`, with the capacity of a reallocated slice left to
  a parameter `grow`.
* The array of plane headers behind `Data [][]byte` is shared by the copies of
  a frame struct. Where a property is about a frame after a call, or about
  two results obtained from one frame, `Store` and `FrameRef` pass that array
  along explicitly.
-/

namespace Av

/-! ## Machine integers -/

/-- Two's complement wrap of a mathematical integer into the 64-bit range of Go `int`. -/
def wrapInt (x : Int) : Int := (x + 2 ^ 63) % 2 ^ 64 - 2 ^ 63

/-- Membership in the range of Go `int`. -/
def IsInt (x : Int) : Prop := -(2 ^ 63) ≤ x ∧ x < 2 ^ 63

instance (x : Int) : Decidable (IsInt x) := by unfold IsInt; infer_instance

/-- Go `a + b` on `int`. -/
def intAdd (a b : Int) : Int := wrapInt (a + b)

/-- Go `a - b` on `int`. -/
def intSub (a b : Int) : Int := wrapInt (a - b)

/-- Go `a * b` on `int`. -/
def intMul (a b : Int) : Int := wrapInt (a * b)

/-! ## Sample formats (`av.go` lines 3-68) -/

/-- Go `type SampleFormat int`. -/
abbrev SampleFormat := Int

def U8 : SampleFormat := 1
def S16 : SampleFormat := 2
def S32 : SampleFormat := 3
def FLT : SampleFormat := 4
def DBL : SampleFormat := 5
def U8P : SampleFormat := 6
def S16P : SampleFormat := 7
def S32P : SampleFormat := 8
def FLTP : SampleFormat := 9
def DBLP : SampleFormat := 10
def U32 : SampleFormat := 11

/-- The eleven enumerated formats. -/
def enumerated : List SampleFormat :=
  [U8, S16, S32, FLT, DBL, U8P, S16P, S32P, FLTP, DBLP, U32]

/-- Go `func (self SampleFormat) BytesPerSample() int`. -/
def SampleFormat.BytesPerSample (self : SampleFormat) : Int :=
  if self = U8 ∨ self = U8P then 1
  else if self = S16 ∨ self = S16P then 2
  else if self = FLT ∨ self = FLTP ∨ self = S32 ∨ self = S32P ∨ self = U32 then 4
  else if self = DBL ∨ self = DBLP then 8
  else 0

/-- Go `func (self SampleFormat) IsPlanar() bool`. -/
def SampleFormat.IsPlanar (self : SampleFormat) : Bool :=
  if self = S16P ∨ self = S32P ∨ self = FLTP ∨ self = DBLP then true
  else false

/-! ## Channel layouts (`av.go` lines 70-99) -/

/-- Go `type ChannelLayout uint64`: a natural number below `2 ^ 64`. -/
abbrev ChannelLayout := Nat

/-- Membership in the range of `uint64`. -/
def IsUint64 (x : Nat) : Prop := x < 2 ^ 64

instance (x : Nat) : Decidable (IsUint64 x) := by unfold IsUint64; infer_instance

def CH_FRONT_CENTER : ChannelLayout := 1 <<< 0
def CH_FRONT_LEFT : ChannelLayout := 1 <<< 1
def CH_FRONT_RIGHT : ChannelLayout := 1 <<< 2
def CH_BACK_CENTER : ChannelLayout := 1 <<< 3
def CH_BACK_LEFT : ChannelLayout := 1 <<< 4
def CH_BACK_RIGHT : ChannelLayout := 1 <<< 5
def CH_SIDE_LEFT : ChannelLayout := 1 <<< 6
def CH_SIDE_RIGHT : ChannelLayout := 1 <<< 7
def CH_LOW_FREQ : ChannelLayout := 1 <<< 8
def CH_NR : ChannelLayout := 1 <<< 9

def CH_MONO : ChannelLayout := CH_FRONT_CENTER
def CH_STEREO : ChannelLayout := CH_FRONT_LEFT ||| CH_FRONT_RIGHT
def CH_2_1 : ChannelLayout := CH_STEREO ||| CH_BACK_CENTER
def CH_2POINT1 : ChannelLayout := CH_STEREO ||| CH_LOW_FREQ
def CH_SURROUND : ChannelLayout := CH_STEREO ||| CH_FRONT_CENTER
def CH_3POINT1 : ChannelLayout := CH_SURROUND ||| CH_LOW_FREQ

/-- The loop body's update `self = (self-1)&self`, in `uint64` arithmetic. -/
def clearLowest (self : ChannelLayout) : ChannelLayout :=
  ((self + 2 ^ 64 - 1) % 2 ^ 64) &&& self

/-- The loop `for self != 0 { n++; self = (self-1)&self }` with at most `fuel`
iterations left; `none` when the fuel runs out before the loop exits. -/
def countLoop : Nat → ChannelLayout → Int → Option Int
  | fuel, self, n =>
    if self ≠ 0 then
      match fuel with
      | 0 => none
      | fuel + 1 => countLoop fuel (clearLowest self) (intAdd n 1)
    else some n

/-- Go `func (self ChannelLayout) Count() (n int)`, run with 64 iterations of fuel. -/
def ChannelLayout.Count (self : ChannelLayout) : Option Int :=
  countLoop 64 self 0

/-- The positions below `w` at which the bit of `x` is set, in increasing order. -/
def setBits (w x : Nat) : List Nat := (List.range w).filter (fun i => x.testBit i)

/-- The population count of a 64-bit mask: the number of its set bits. -/
def popcount (x : Nat) : Nat := (setBits 64 x).length

/-! ## Audio frames (`av.go` lines 198-236) -/

/-- One byte. -/
abbrev Byte := Fin 256

/-- A Go `[]byte` value: the `len` bytes it exposes, followed in the backing
array by the `cap - len` bytes of `spare`. -/
structure ByteSlice where
  bytes : List Byte
  spare : List Byte
  deriving DecidableEq, Repr

/-- Go `cap(s)`. -/
def ByteSlice.cap (s : ByteSlice) : Nat := s.bytes.length + s.spare.length

/-- The run-time panics the frame operations can raise. -/
inductive Panic where
  | sliceBounds
  | indexOutOfRange
  deriving DecidableEq, Repr

instance {ε α : Type} [DecidableEq ε] [DecidableEq α] : DecidableEq (Except ε α)
  | .ok a, .ok b => if h : a = b then isTrue (by rw [h]) else isFalse (by simpa using h)
  | .error a, .error b => if h : a = b then isTrue (by rw [h]) else isFalse (by simpa using h)
  | .ok _, .error _ => isFalse (by simp)
  | .error _, .ok _ => isFalse (by simp)

/-- Go `type AudioFrame struct`. -/
structure AudioFrame where
  SampleRate : Int
  SampleFormat : Av.SampleFormat
  ChannelLayout : Av.ChannelLayout
  SampleCount : Int
  Data : List ByteSlice
  deriving DecidableEq, Repr

/-- Go `func (self AudioFrame) HasSameFormat(other AudioFrame) bool`. -/
def AudioFrame.HasSameFormat (self other : AudioFrame) : Bool :=
  if self.SampleRate ≠ other.SampleRate then false
  else if self.ChannelLayout ≠ other.ChannelLayout then false
  else if self.SampleFormat ≠ other.SampleFormat then false
  else true

/-- The backing array of a `[]byte` from the first exposed byte on. -/
def ByteSlice.backing (s : ByteSlice) : List Byte := s.bytes ++ s.spare

/-- The value of `s[lo:hi]` when the bounds check passes: the bytes of the
backing array from `lo` (inclusive) to `hi` (exclusive), with the rest of the
array as spare capacity. -/
def ByteSlice.window (s : ByteSlice) (lo hi : Nat) : ByteSlice :=
  { bytes := (s.backing.take hi).drop lo, spare := s.backing.drop hi }

/-- The Go slice expression `s[lo:hi]` on a `[]byte`: it panics unless
`0 <= lo <= hi <= cap(s)`. -/
def sliceExpr (s : ByteSlice) (lo hi : Int) : Except Panic ByteSlice :=
  if 0 ≤ lo ∧ lo ≤ hi ∧ hi ≤ (s.cap : Int) then .ok (s.window lo.toNat hi.toNat)
  else .error Panic.sliceBounds

/-- The loop `for i := range out.Data { out.Data[i] = out.Data[i][lo:hi] }`:
the planes are sliced in order and the first panic ends the loop. -/
def sliceLoop (lo hi : Int) : List ByteSlice → Except Panic (List ByteSlice)
  | [] => .ok []
  | p :: ps =>
    match sliceExpr p lo hi with
    | .error e => .error e
    | .ok q =>
      match sliceLoop lo hi ps with
      | .error e => .error e
      | .ok qs => .ok (q :: qs)

/-- Go `func (self AudioFrame) Slice(start int, end int) (out AudioFrame)`:
the frame the call returns. (`out = self` copies the struct, so `out.Data`
and the `Data` of the frame the method is called on are one array of plane
headers, and the planes the loop stores are the planes `out.Data` holds on
return.) -/
def AudioFrame.Slice (self : AudioFrame) (start end_ : Int) : Except Panic AudioFrame :=
  let size := self.SampleFormat.BytesPerSample
  match sliceLoop (intMul start size) (intMul end_ size) self.Data with
  | .error e => .error e
  | .ok planes => .ok { self with SampleCount := intSub end_ start, Data := planes }

/-- The `[]byte` value Go `append(s, t...)` returns: the bytes of `s` followed
by those of `t`, in the backing array of `s` when its spare capacity holds
them and in a fresh array otherwise. This is the value of the one slice; the
bytes an in-place append stores into a backing array that other slices share
are in `appendHdr`. The capacity of a fresh array is the choice of the
run-time (a parameter of `appendHdr`); here it is the length, and no
statement depends on it. -/
def appendBytes (s : ByteSlice) (t : List Byte) : ByteSlice :=
  if t.length ≤ s.spare.length then
    { bytes := s.bytes ++ t, spare := s.spare.drop t.length }
  else
    { bytes := s.bytes ++ t, spare := [] }

/-- The loop `for i := range out.Data { out.Data[i] = append(out.Data[i], in.Data[i]...) }`
from index `i` on, on the values of planes that each have a backing array of
their own; `in.Data[i]` panics when `in` has no plane `i`. The loop on planes
that may share a backing array is `concatLoopMem`. -/
def concatLoop (inData : List ByteSlice) : Nat → List ByteSlice → Except Panic (List ByteSlice)
  | _, [] => .ok []
  | i, p :: ps =>
    match inData[i]? with
    | none => .error Panic.indexOutOfRange
    | some q =>
      match concatLoop inData (i + 1) ps with
      | .error e => .error e
      | .ok rs => .ok (appendBytes p q.bytes :: rs)

/-- Go `func (self AudioFrame) Concat(in AudioFrame) (out AudioFrame)` on the
values of two frames whose planes each have a backing array of their own: the
frame the call returns. The method on frames in byte memory, whose planes may
share backing arrays, is `FrameRef.ConcatMem`; `concatMem_value` relates the
two. -/
def AudioFrame.Concat (self inp : AudioFrame) : Except Panic AudioFrame :=
  match concatLoop inp.Data 0 self.Data with
  | .error e => .error e
  | .ok planes =>
    .ok { self with SampleCount := intAdd self.SampleCount inp.SampleCount, Data := planes }

/-- The frame is a value of the Go type: its `int` fields are in the range of
`int`, its layout in the range of `uint64`, and the capacity of every plane
is an `int`. -/
def AudioFrame.Representable (f : AudioFrame) : Prop :=
  IsInt f.SampleRate ∧ IsInt f.SampleFormat ∧ IsUint64 f.ChannelLayout ∧
    IsInt f.SampleCount ∧ ∀ p ∈ f.Data, IsInt (p.cap : Int)

instance (f : AudioFrame) : Decidable f.Representable := by
  unfold AudioFrame.Representable; infer_instance

/-- A 10-sample, single-plane S16 frame whose plane holds the bytes 0, 1, ..., 19. -/
def frame10 : AudioFrame :=
  { SampleRate := 8000, SampleFormat := S16, ChannelLayout := CH_MONO, SampleCount := 10,
    Data := [⟨[0, 1, 2, 3, 4, 5, 6, 7, 8, 9, 10, 11, 12, 13, 14, 15, 16, 17, 18, 19], []⟩] }

/-- A 5-sample, single-plane S16 frame whose plane holds the bytes 100, ..., 109. -/
def frame5 : AudioFrame :=
  { SampleRate := 8000, SampleFormat := S16, ChannelLayout := CH_MONO, SampleCount := 5,
    Data := [⟨[100, 101, 102, 103, 104, 105, 106, 107, 108, 109], []⟩] }

/-- The frame `frame10` with the unassigned sample format 0, of width 0. -/
def frameUnknown : AudioFrame := { frame10 with SampleFormat := 0 }

/-- A 1-sample, single-plane U8 frame. -/
def frameU8 : AudioFrame :=
  { SampleRate := 8000, SampleFormat := U8, ChannelLayout := CH_MONO, SampleCount := 1,
    Data := [⟨[200], []⟩] }

/-- A 2-sample S16 frame with two planes, otherwise in the format of `frame5`. -/
def frameTwoPlanes : AudioFrame :=
  { SampleRate := 8000, SampleFormat := S16, ChannelLayout := CH_MONO, SampleCount := 2,
    Data := [⟨[50, 51, 52, 53], []⟩, ⟨[60, 61, 62, 63], []⟩] }

/-- A frame is well-formed when every plane has exactly
`SampleCount * BytesPerSample` bytes. -/
def AudioFrame.WellFormed (f : AudioFrame) : Prop :=
  ∀ p ∈ f.Data, (p.bytes.length : Int) = f.SampleCount * f.SampleFormat.BytesPerSample

instance (f : AudioFrame) : Decidable f.WellFormed := by
  unfold AudioFrame.WellFormed; infer_instance

/-! ## Frames in memory

`Data [][]byte` is a slice header: copying an `AudioFrame` struct, as a value
receiver and `out = self` do, copies the pointer to the array of plane
headers and not the array. The definitions below pass that array along
explicitly. -/

/-- The arrays of plane headers in memory, by address. -/
abbrev Store := List (List ByteSlice)

/-- A Go `AudioFrame` struct value as a program holds it: the scalar fields
and, for `Data`, the address of its array of plane headers (an address
outside the store stands for a `Data` without planes). -/
structure FrameRef where
  SampleRate : Int
  SampleFormat : Av.SampleFormat
  ChannelLayout : Av.ChannelLayout
  SampleCount : Int
  Data : Nat
  deriving DecidableEq, Repr

/-- The frame a struct value denotes in a store. -/
def FrameRef.read (st : Store) (f : FrameRef) : AudioFrame :=
  { SampleRate := f.SampleRate, SampleFormat := f.SampleFormat,
    ChannelLayout := f.ChannelLayout, SampleCount := f.SampleCount,
    Data := st.getD f.Data [] }

/-- Go `func (self AudioFrame) Slice(start int, end int) (out AudioFrame)`
with its effect on memory: `out = self` shares the array of plane headers of
the receiver, `out.Data[i] = out.Data[i][lo:hi]` stores into that array, and
the struct `out` is returned. -/
def FrameRef.Slice (st : Store) (self : FrameRef) (start end_ : Int) :
    Except Panic (FrameRef × Store) :=
  let size := self.SampleFormat.BytesPerSample
  match sliceLoop (intMul start size) (intMul end_ size) (st.getD self.Data []) with
  | .error e => .error e
  | .ok planes => .ok ({ self with SampleCount := intSub end_ start }, st.set self.Data planes)

/-- Go `func (self AudioFrame) Concat(in AudioFrame) (out AudioFrame)` with
its effect on the array of plane headers: `out.Data[i] = append(out.Data[i],
in.Data[i]...)` stores into the array of plane headers of the receiver.
Iteration `i` reads `in.Data[i]` before any store to index `i`, so also when
`in` shares the array of the receiver the loop appends the planes `in` has
when the call starts. The planes are values with a backing array of their
own; `FrameRef.ConcatMem` is the method on byte memory. -/
def FrameRef.Concat (st : Store) (self inp : FrameRef) : Except Panic (FrameRef × Store) :=
  match concatLoop (st.getD inp.Data []) 0 (st.getD self.Data []) with
  | .error e => .error e
  | .ok planes =>
    .ok ({ self with SampleCount := intAdd self.SampleCount inp.SampleCount },
      st.set self.Data planes)

/-- The program `f.Slice(0,k).Concat(f.Slice(k,n))`, evaluated left to right,
and the frame it yields. -/
def splitJoin (st : Store) (f : FrameRef) (k n : Int) : Except Panic AudioFrame :=
  match f.Slice st 0 k with
  | .error e => .error e
  | .ok (first, st1) =>
    match f.Slice st1 k n with
    | .error e => .error e
    | .ok (second, st2) =>
      match first.Concat st2 second with
      | .error e => .error e
      | .ok (out, st3) => .ok (out.read st3)

/-- The program `f.Slice(start,end); f.Slice(start,end)`: the frame the first
call returns, as read right after it, the caller's frame after the first
call, and the frame the second call returns. -/
def sliceTwice (st : Store) (f : FrameRef) (start end_ : Int) :
    Except Panic (AudioFrame × AudioFrame × AudioFrame) :=
  match f.Slice st start end_ with
  | .error e => .error e
  | .ok (first, st1) =>
    match f.Slice st1 start end_ with
    | .error e => .error e
    | .ok (second, st2) => .ok (first.read st1, f.read st1, second.read st2)

/-- The store that holds the planes of `frame10` at address 0. -/
def store10 : Store := [frame10.Data]

/-- The struct value of `frame10` in `store10`. -/
def ref10 : FrameRef :=
  { SampleRate := 8000, SampleFormat := S16, ChannelLayout := CH_MONO, SampleCount := 10,
    Data := 0 }

/-! ## Byte memory

The planes of a frame are slice headers into byte arrays, and `append` writes
through them: in place when the capacity suffices, into a fresh array
otherwise. The definitions below keep the bytes in one memory and the plane
headers as pointers into it, so that planes that share a buffer are
represented as such. -/

/-- A Go `[]byte` header: the position of its first byte in memory, its
length and its capacity. -/
structure SliceHdr where
  ptr : Nat
  len : Nat
  cap : Nat
  deriving DecidableEq, Repr

/-- The memory of a program: the bytes of all byte arrays, and the arrays of
plane headers by address. -/
structure Heap where
  mem : List Byte
  hdrs : List (List SliceHdr)
  deriving DecidableEq, Repr

/-- The `n` bytes of memory from position `p` on. -/
def readAt (mem : List Byte) (p n : Nat) : List Byte := (mem.drop p).take n

/-- Memory with the bytes `t` stored from position `p` on. -/
def writeAt (mem : List Byte) (p : Nat) (t : List Byte) : List Byte :=
  mem.take p ++ t ++ mem.drop (p + t.length)

/-- The bytes a header exposes. -/
def SliceHdr.bytes (mem : List Byte) (h : SliceHdr) : List Byte := readAt mem h.ptr h.len

/-- The `[]byte` value a header denotes: the bytes it exposes and the rest of
its backing array up to its capacity. -/
def SliceHdr.view (mem : List Byte) (h : SliceHdr) : ByteSlice :=
  { bytes := readAt mem h.ptr h.len, spare := readAt mem (h.ptr + h.len) (h.cap - h.len) }

/-- The header is one of a Go slice in this memory: its length is at most its
capacity, and its backing array lies in memory. -/
def SliceHdr.ValidIn (mem : List Byte) (h : SliceHdr) : Prop :=
  h.len ≤ h.cap ∧ h.ptr + h.cap ≤ mem.length

instance (mem : List Byte) (h : SliceHdr) : Decidable (h.ValidIn mem) := by
  unfold SliceHdr.ValidIn; infer_instance

/-- The plane headers of a frame struct. -/
def FrameRef.planes (hp : Heap) (f : FrameRef) : List SliceHdr := hp.hdrs.getD f.Data []

/-- The frame a struct value denotes in memory. -/
def FrameRef.view (hp : Heap) (f : FrameRef) : AudioFrame :=
  { SampleRate := f.SampleRate, SampleFormat := f.SampleFormat,
    ChannelLayout := f.ChannelLayout, SampleCount := f.SampleCount,
    Data := (f.planes hp).map (SliceHdr.view hp.mem) }

/-- Go `append(s, t...)` on `[]byte`, where `t` holds the bytes read from the
second operand. When `len(s) + len(t) <= cap(s)` the bytes are stored in the
backing array of `s` right after its length, over whatever is there. Otherwise
a fresh array is allocated behind all memory in use, of a capacity the
run-time chooses (`grow`, given the old capacity and the length needed; at
least that length), holding the bytes of `s`, then `t`, then zeros. -/
def appendHdr (grow : Nat → Nat → Nat) (mem : List Byte) (s : SliceHdr) (t : List Byte) :
    SliceHdr × List Byte :=
  if s.len + t.length ≤ s.cap then
    ({ s with len := s.len + t.length }, writeAt mem (s.ptr + s.len) t)
  else
    let c := max (grow s.cap (s.len + t.length)) (s.len + t.length)
    ({ ptr := mem.length, len := s.len + t.length, cap := c },
      mem ++ (readAt mem s.ptr s.len ++ t ++ List.replicate (c - (s.len + t.length)) 0))

/-- The loop `for i := range out.Data { out.Data[i] = append(out.Data[i], in.Data[i]...) }`
on the remaining plane headers of `out` and of `in`: iteration `i` reads the
bytes of `in.Data[i]` from memory as it is then, after the appends of the
earlier iterations, and panics when `in` has no plane `i`. -/
def concatLoopMem (grow : Nat → Nat → Nat) :
    List SliceHdr → List SliceHdr → List Byte → Except Panic (List SliceHdr × List Byte)
  | [], _, mem => .ok ([], mem)
  | _ :: _, [], _ => .error Panic.indexOutOfRange
  | s :: ss, t :: ts, mem =>
    match concatLoopMem grow ss ts (appendHdr grow mem s (t.bytes mem)).2 with
    | .error e => .error e
    | .ok (rs, mem2) => .ok ((appendHdr grow mem s (t.bytes mem)).1 :: rs, mem2)

/-- Go `func (self AudioFrame) Concat(in AudioFrame) (out AudioFrame)` on
frames in memory: `out = self` shares the array of plane headers of the
receiver, the loop stores the appended planes into that array and the bytes
into memory, and the struct `out` is returned. (Iteration `i` is the first to
store into index `i` of the array, so the headers of `in` it reads are those
`in` has when the call starts, also when `in` shares the array.) -/
def FrameRef.ConcatMem (grow : Nat → Nat → Nat) (hp : Heap) (self inp : FrameRef) :
    Except Panic (FrameRef × Heap) :=
  match concatLoopMem grow (self.planes hp) (inp.planes hp) hp.mem with
  | .error e => .error e
  | .ok (planes, mem) =>
    .ok ({ self with SampleCount := intAdd self.SampleCount inp.SampleCount },
      { mem := mem, hdrs := hp.hdrs.set self.Data planes })

/-- The Go slice expression `s[lo:hi]` on the header of a `[]byte`: it panics
unless `0 <= lo <= hi <= cap(s)`, and otherwise moves the pointer by `lo` and
leaves `hi - lo` bytes exposed and `cap(s) - lo` bytes of capacity. -/
def sliceHdr (h : SliceHdr) (lo hi : Int) : Except Panic SliceHdr :=
  if 0 ≤ lo ∧ lo ≤ hi ∧ hi ≤ (h.cap : Int) then
    .ok { ptr := h.ptr + lo.toNat, len := hi.toNat - lo.toNat, cap := h.cap - lo.toNat }
  else .error Panic.sliceBounds

/-- The loop `for i := range out.Data { out.Data[i] = out.Data[i][lo:hi] }` on
plane headers. -/
def sliceLoopMem (lo hi : Int) : List SliceHdr → Except Panic (List SliceHdr)
  | [] => .ok []
  | h :: hs =>
    match sliceHdr h lo hi with
    | .error e => .error e
    | .ok r =>
      match sliceLoopMem lo hi hs with
      | .error e => .error e
      | .ok rs => .ok (r :: rs)

/-- Go `func (self AudioFrame) Slice(start int, end int) (out AudioFrame)` on
frames in memory: the sliced headers are stored into the array of plane
headers `out` shares with the receiver; no byte is read or written. -/
def FrameRef.SliceMem (hp : Heap) (self : FrameRef) (start end_ : Int) :
    Except Panic (FrameRef × Heap) :=
  let size := self.SampleFormat.BytesPerSample
  match sliceLoopMem (intMul start size) (intMul end_ size) (self.planes hp) with
  | .error e => .error e
  | .ok planes =>
    .ok ({ self with SampleCount := intSub end_ start },
      { hp with hdrs := hp.hdrs.set self.Data planes })

/-- The program `f.Slice(0,k).Concat(f.Slice(k,n))` on a frame in memory,
evaluated left to right, and the frame it yields. -/
def splitJoinMem (grow : Nat → Nat → Nat) (hp : Heap) (f : FrameRef) (k n : Int) :
    Except Panic AudioFrame :=
  match f.SliceMem hp 0 k with
  | .error e => .error e
  | .ok (first, hp1) =>
    match f.SliceMem hp1 k n with
    | .error e => .error e
    | .ok (second, hp2) =>
      match first.ConcatMem grow hp2 second with
      | .error e => .error e
      | .ok (out, hp3) => .ok (out.view hp3)

/-- The positions `[a, b)` and `[c, d)` have no position in common. -/
def NoOverlap (a b c d : Nat) : Prop := b ≤ a ∨ d ≤ c ∨ b ≤ c ∨ d ≤ a

instance (a b c d : Nat) : Decidable (NoOverlap a b c d) := by
  unfold NoOverlap; infer_instance

/-- The end of the positions the append of `t` to `s` stores into, which
start at `s.ptr + s.len`: that many bytes further when the append is in
place, nothing otherwise. -/
def SliceHdr.writeEnd (s t : SliceHdr) : Nat :=
  if s.len + t.len ≤ s.cap then s.ptr + s.len + t.len else s.ptr + s.len

/-- No in-place append of the loop stores into bytes of another plane that
the result depends on: for two different indices `i`, `j`, what the append to
plane `i` of `out` stores lies outside plane `j` of `out` with what is stored
behind it, and, when `i < j`, outside plane `j` of `in`, which the loop reads
later. -/
def Separate (ss ts : List SliceHdr) : Prop :=
  ∀ i, i < ss.length → ∀ j, j < ss.length → i ≠ j →
    NoOverlap ((ss.getD i ⟨0, 0, 0⟩).ptr + (ss.getD i ⟨0, 0, 0⟩).len)
        ((ss.getD i ⟨0, 0, 0⟩).writeEnd (ts.getD i ⟨0, 0, 0⟩))
        (ss.getD j ⟨0, 0, 0⟩).ptr ((ss.getD j ⟨0, 0, 0⟩).writeEnd (ts.getD j ⟨0, 0, 0⟩)) ∧
    (i < j →
      NoOverlap ((ss.getD i ⟨0, 0, 0⟩).ptr + (ss.getD i ⟨0, 0, 0⟩).len)
        ((ss.getD i ⟨0, 0, 0⟩).writeEnd (ts.getD i ⟨0, 0, 0⟩))
        (ts.getD j ⟨0, 0, 0⟩).ptr ((ts.getD j ⟨0, 0, 0⟩).ptr + (ts.getD j ⟨0, 0, 0⟩).len))

instance (ss ts : List SliceHdr) : Decidable (Separate ss ts) := by
  unfold Separate; infer_instance

/-- The allocation policy that gives a fresh array twice the length needed. -/
def growDouble (_oldCap needed : Nat) : Nat := 2 * needed

/-- A memory with one 16-byte buffer holding 0, ..., 15, from which the two
planes of a frame are carved as `buf[0:4]` and `buf[4:8]`, followed by two
4-byte arrays that are the planes of a second frame. -/
def heapShared : Heap :=
  { mem := [0, 1, 2, 3, 4, 5, 6, 7, 8, 9, 10, 11, 12, 13, 14, 15,
      104, 105, 106, 107, 200, 201, 202, 203],
    hdrs := [[⟨0, 4, 16⟩, ⟨4, 4, 12⟩], [⟨16, 4, 4⟩, ⟨20, 4, 4⟩]] }

/-- The 2-sample planar S16 frame whose planes are `buf[0:4]` and `buf[4:8]`. -/
def refSharedA : FrameRef :=
  { SampleRate := 8000, SampleFormat := S16P, ChannelLayout := CH_STEREO, SampleCount := 2,
    Data := 0 }

/-- The 2-sample planar S16 frame whose planes are the two 4-byte arrays. -/
def refSharedB : FrameRef :=
  { SampleRate := 8000, SampleFormat := S16P, ChannelLayout := CH_STEREO, SampleCount := 2,
    Data := 1 }

/-- The memory of `heapShared` with the two planes of the first frame in
parts of the buffer that do not meet: `buf[0:4]` of capacity 8 and `buf[8:12]`
of capacity 8. -/
def heapSeparate : Heap :=
  { mem := heapShared.mem, hdrs := [[⟨0, 4, 8⟩, ⟨8, 4, 8⟩], [⟨16, 4, 4⟩, ⟨20, 4, 4⟩]] }

/-- The memory of `heapShared` with a first frame of the single plane
`buf[0:4]` of capacity 8. -/
def heapOnePlane : Heap :=
  { mem := heapShared.mem, hdrs := [[⟨0, 4, 8⟩], [⟨16, 4, 4⟩, ⟨20, 4, 4⟩]] }

/-- The memory that holds the plane of `frame10`, a 20-byte array, and the
array of its one plane header at address 0. -/
def heap10 : Heap :=
  { mem := [0, 1, 2, 3, 4, 5, 6, 7, 8, 9, 10, 11, 12, 13, 14, 15, 16, 17, 18, 19],
    hdrs := [[⟨0, 20, 20⟩]] }

/-- The memory that holds the plane of `frame10` followed by the plane of
`frame5`, and the arrays of their plane headers at addresses 0 and 1. -/
def heap15 : Heap :=
  { mem := [0, 1, 2, 3, 4, 5, 6, 7, 8, 9, 10, 11, 12, 13, 14, 15, 16, 17, 18, 19,
      100, 101, 102, 103, 104, 105, 106, 107, 108, 109],
    hdrs := [[⟨0, 20, 20⟩], [⟨20, 10, 10⟩]] }

/-- The struct value of `frame5` in `heap15`. -/
def ref5 : FrameRef :=
  { SampleRate := 8000, SampleFormat := S16, ChannelLayout := CH_MONO, SampleCount := 5,
    Data := 1 }

/-- The arrays of plane headers of a memory, each header replaced by the
`[]byte` value it denotes. -/
def Heap.store (hp : Heap) : Store := hp.hdrs.map (List.map (SliceHdr.view hp.mem))

/-! ## Display names (`av.go` lines 34-59) -/

/-- Go `func (self SampleFormat) String() string`. -/
def SampleFormat.String (self : SampleFormat) : String :=
  if self = U8 then "U8"
  else if self = S16 then "S16"
  else if self = S32 then "S32"
  else if self = FLT then "FLT"
  else if self = DBL then "DBL"
  else if self = U8P then "U8P"
  else if self = S16P then "S16P"
  else if self = FLTP then "FLTP"
  else if self = DBLP then "DBLP"
  else if self = U32 then "U32"
  else "?"

/-! ## Codec descriptors (`av.go` lines 101-145) -/

/-- Go `H264 = iota+0x264`, the first constant of its block. -/
def H264 : Int := 0 + 0x264

/-- The second constant of the block, `iota = 1`. -/
def AAC : Int := 1 + 0x264

/-- The third constant of the block, `iota = 2`. -/
def PCM_MULAW : Int := 2 + 0x264

/-- Go `type BasicAudioCodecData struct`. -/
structure BasicAudioCodecData where
  CodecType : Int
  CodecSampleRate : Int
  CodecChannelLayout : Av.ChannelLayout
  CodecSampleFormat : Av.SampleFormat
  deriving DecidableEq, Repr

/-- Go `func (self BasicAudioCodecData) Type() int`. -/
def BasicAudioCodecData.Type_ (self : BasicAudioCodecData) : Int := self.CodecType

/-- Go `func (self BasicAudioCodecData) IsAudio() bool`. -/
def BasicAudioCodecData.IsAudio (_self : BasicAudioCodecData) : Bool := true

/-- Go `func (self BasicAudioCodecData) IsVideo() bool`. -/
def BasicAudioCodecData.IsVideo (_self : BasicAudioCodecData) : Bool := false

/-- Go `func (self BasicAudioCodecData) SampleRate() int`. -/
def BasicAudioCodecData.SampleRate (self : BasicAudioCodecData) : Int := self.CodecSampleRate

/-- Go `func (self BasicAudioCodecData) ChannelLayout() ChannelLayout`. -/
def BasicAudioCodecData.ChannelLayout (self : BasicAudioCodecData) : Av.ChannelLayout :=
  self.CodecChannelLayout

/-- Go `func (self BasicAudioCodecData) SampleFormat() SampleFormat`. -/
def BasicAudioCodecData.SampleFormat (self : BasicAudioCodecData) : Av.SampleFormat :=
  self.CodecSampleFormat

/-- Go `func NewPCMMulawCodecData() AudioCodecData`: the `BasicAudioCodecData`
value the returned interface holds. -/
def NewPCMMulawCodecData : BasicAudioCodecData :=
  { CodecType := PCM_MULAW, CodecSampleFormat := S16, CodecChannelLayout := CH_MONO,
    CodecSampleRate := 8000 }

/-! ## Sample format registry -/

/-- Outside `1 .. 11` no case of the `switch` matches and the width is 0. -/
theorem bytesPerSample_outside (v : SampleFormat) (h : v ≤ 0 ∨ 12 ≤ v) :
    v.BytesPerSample = 0 := by
  unfold SampleFormat.BytesPerSample U8 U8P S16 S16P FLT FLTP S32 S32P U32 DBL DBLP
  delta SampleFormat at *
  rw [if_neg (by omega), if_neg (by omega), if_neg (by omega), if_neg (by omega)]

/-- C8: `BytesPerSample` is 1 exactly for U8 and U8P, 2 exactly for S16 and
S16P, 4 exactly for S32, S32P, FLT, FLTP and U32, 8 exactly for DBL and DBLP,
and 0 exactly for the values outside the eleven enumerated formats (the zero
value and every negative or larger integer); the result is one of
0, 1, 2, 4, 8. -/
theorem bytesPerSample_table :
    (∀ v : SampleFormat,
      (v.BytesPerSample = 1 ↔ v = U8 ∨ v = U8P) ∧
      (v.BytesPerSample = 2 ↔ v = S16 ∨ v = S16P) ∧
      (v.BytesPerSample = 4 ↔ v = S32 ∨ v = S32P ∨ v = FLT ∨ v = FLTP ∨ v = U32) ∧
      (v.BytesPerSample = 8 ↔ v = DBL ∨ v = DBLP) ∧
      (v.BytesPerSample = 0 ↔ v ∉ enumerated) ∧
      (v.BytesPerSample = 0 ↔ v ≤ 0 ∨ 12 ≤ v) ∧
      v.BytesPerSample ∈ [0, 1, 2, 4, 8]) ∧
    SampleFormat.BytesPerSample 0 = 0 := by
  refine ⟨fun v => ?_, by decide⟩
  have hc : (v ≤ 0 ∨ 12 ≤ v) ∨ (1 ≤ v ∧ v ≤ 11) := by delta SampleFormat at *; omega
  rcases hc with h | ⟨h1, h2⟩
  · rw [bytesPerSample_outside v h]
    simp only [enumerated, U8, S16, S32, FLT, DBL, U8P, S16P, S32P, FLTP, DBLP, U32,
      List.mem_cons, List.mem_singleton, List.not_mem_nil, or_false]
    delta SampleFormat at *
    refine ⟨⟨fun g => ?_, fun g => ?_⟩, ⟨fun g => ?_, fun g => ?_⟩, ⟨fun g => ?_, fun g => ?_⟩,
      ⟨fun g => ?_, fun g => ?_⟩, ⟨fun g => ?_, fun g => ?_⟩, ⟨fun g => ?_, fun g => ?_⟩, ?_⟩
    all_goals first | omega | simp
  · delta SampleFormat at *
    interval_cases v <;> decide

/-- C6 (as the code behaves): `IsPlanar` is true exactly for S16P, S32P, FLTP
and DBLP; for U8P, the planar variant of U8, it answers false. -/
theorem isPlanar_misses_U8P :
    SampleFormat.IsPlanar U8P = false ∧
    ∀ v : SampleFormat, v.IsPlanar = true ↔ v = S16P ∨ v = S32P ∨ v = FLTP ∨ v = DBLP := by
  refine ⟨by decide, fun v => ?_⟩
  simp only [SampleFormat.IsPlanar]
  split_ifs with h <;> simp [h]

/-! ## Format compatibility of frames -/

/-- C9: `HasSameFormat` holds exactly when sample rate, channel layout (the
whole mask) and sample format are equal; it does not look at `SampleCount` or
`Data`; and two frames that differ only in the layout, CH_2_1 against
CH_2POINT1 (three channels each), do not have the same format. -/
theorem hasSameFormat_iff :
    (∀ a b : AudioFrame, a.HasSameFormat b = true ↔
      a.SampleRate = b.SampleRate ∧ a.ChannelLayout = b.ChannelLayout ∧
        a.SampleFormat = b.SampleFormat) ∧
    (∀ (a b : AudioFrame) (n m : Int) (d e : List ByteSlice),
      AudioFrame.HasSameFormat { a with SampleCount := n, Data := d }
        { b with SampleCount := m, Data := e } = a.HasSameFormat b) ∧
    (∀ (r : Int) (f : SampleFormat) (n : Int) (d : List ByteSlice),
      AudioFrame.HasSameFormat ⟨r, f, CH_2_1, n, d⟩ ⟨r, f, CH_2POINT1, n, d⟩ = false ∧
      ChannelLayout.Count CH_2_1 = some 3 ∧ ChannelLayout.Count CH_2POINT1 = some 3) := by
  refine ⟨fun a b => ?_, fun a b n m d e => rfl, fun r f n d => ⟨?_, by decide, by decide⟩⟩
  · simp only [AudioFrame.HasSameFormat]
    split_ifs <;> simp_all
  · have h : CH_2_1 ≠ CH_2POINT1 := by decide
    simp [AudioFrame.HasSameFormat, h]

/-! ## Channel count -/

/-- Inside the range of `int` the wrap is the identity. -/
theorem wrapInt_of_range (x : Int) (h1 : -(2 ^ 63) ≤ x) (h2 : x < 2 ^ 63) : wrapInt x = x := by
  unfold wrapInt
  rw [Int.emod_eq_of_lt (by omega) (by omega)]
  omega

theorem clearLowest_eq (x : Nat) (h0 : x ≠ 0) (hx : x < 2 ^ 64) :
    clearLowest x = (x - 1) &&& x := by
  unfold clearLowest
  have h : x + 2 ^ 64 - 1 = (x - 1) + 2 ^ 64 := by omega
  rw [h, Nat.add_mod_right, Nat.mod_eq_of_lt (by omega)]

theorem pred_and_self_odd (k : Nat) : (2 * k + 1 - 1) &&& (2 * k + 1) = 2 * k := by
  apply Nat.eq_of_testBit_eq
  intro i
  rw [Nat.testBit_and]
  cases i with
  | zero => simp [Nat.testBit_zero]
  | succ j =>
    simp only [Nat.testBit_succ]
    have h1 : (2 * k + 1 - 1) / 2 = k := by omega
    have h2 : (2 * k + 1) / 2 = k := by omega
    have h3 : (2 * k) / 2 = k := by omega
    rw [h1, h2, h3, Bool.and_self]

theorem pred_and_self_even (k : Nat) (hk : 0 < k) :
    (2 * k - 1) &&& (2 * k) = 2 * ((k - 1) &&& k) := by
  apply Nat.eq_of_testBit_eq
  intro i
  rw [Nat.testBit_and]
  cases i with
  | zero => simp [Nat.testBit_zero]
  | succ j =>
    simp only [Nat.testBit_succ]
    have h1 : (2 * k - 1) / 2 = k - 1 := by omega
    have h2 : (2 * k) / 2 = k := by omega
    have h3 : (2 * ((k - 1) &&& k)) / 2 = (k - 1) &&& k := by omega
    rw [h1, h2, h3, Nat.testBit_and]

theorem setBits_succ_length (w x : Nat) :
    (setBits (w + 1) x).length = x % 2 + (setBits w (x / 2)).length := by
  unfold setBits
  rw [List.range_succ_eq_map, List.filter_cons, List.filter_map, Nat.testBit_zero]
  have hf : ((fun i => x.testBit i) ∘ Nat.succ) = (fun i => (x / 2).testBit i) := by
    funext i
    simp [Nat.testBit_succ]
  rw [hf]
  rcases Nat.mod_two_eq_zero_or_one x with h | h <;> simp [h]
  omega


theorem setBits_length_le (w x : Nat) : (setBits w x).length ≤ w := by
  unfold setBits
  calc ((List.range w).filter (fun i => x.testBit i)).length
      ≤ (List.range w).length := List.length_filter_le _ _
    _ = w := List.length_range w

/-- Clearing the lowest set bit removes exactly one set bit. -/
theorem setBits_pred_and_self (w : Nat) :
    ∀ x : Nat, 0 < x → x < 2 ^ w →
      (setBits w ((x - 1) &&& x)).length + 1 = (setBits w x).length := by
  induction w with
  | zero => intro x h0 hx; simp at hx; omega
  | succ w ih =>
    intro x h0 hx
    rw [setBits_succ_length, setBits_succ_length]
    rcases Nat.mod_two_eq_zero_or_one x with h | h
    · obtain ⟨k, rfl⟩ : ∃ k, x = 2 * k := ⟨x / 2, by omega⟩
      have hk : 0 < k := by omega
      rw [pred_and_self_even k hk]
      have hk2 : k < 2 ^ w := by rw [pow_succ] at hx; omega
      have e1 : 2 * ((k - 1) &&& k) % 2 = 0 := by omega
      have e2 : 2 * ((k - 1) &&& k) / 2 = (k - 1) &&& k := by omega
      have e3 : 2 * k / 2 = k := by omega
      rw [e1, e2, e3, h]
      have := ih k hk hk2
      omega
    · obtain ⟨k, rfl⟩ : ∃ k, x = 2 * k + 1 := ⟨x / 2, by omega⟩
      rw [pred_and_self_odd k]
      have e1 : 2 * k % 2 = 0 := by omega
      have e2 : 2 * k / 2 = k := by omega
      have e3 : (2 * k + 1) / 2 = k := by omega
      rw [e1, e2, e3, h]
      omega

theorem setBits_zero_length (w : Nat) : (setBits w 0).length = 0 := by
  simp [setBits]

/-- The loop adds the number of set bits to the counter, provided the fuel
covers that number. -/
theorem countLoop_eq (fuel : Nat) :
    ∀ (x : ChannelLayout) (n : Int), x < 2 ^ 64 → popcount x ≤ fuel →
      0 ≤ n → n + popcount x < 2 ^ 63 →
      countLoop fuel x n = some (n + popcount x) := by
  induction fuel with
  | zero =>
    intro x n hx hp hn hb
    by_cases h0 : x = 0
    · subst h0
      simp [countLoop, popcount, setBits_zero_length]
    · have := setBits_pred_and_self 64 x (Nat.pos_of_ne_zero h0) hx
      unfold popcount at hp
      omega
  | succ fuel ih =>
    intro x n hx hp hn hb
    by_cases h0 : x = 0
    · subst h0
      simp [countLoop, popcount, setBits_zero_length]
    · have hstep := setBits_pred_and_self 64 x (Nat.pos_of_ne_zero h0) hx
      rw [← clearLowest_eq x h0 hx] at hstep
      have hlt : clearLowest x < 2 ^ 64 := by
        rw [clearLowest_eq x h0 hx]
        exact lt_of_le_of_lt Nat.and_le_right hx
      have hpc : popcount x = popcount (clearLowest x) + 1 := by
        unfold popcount; omega
      have hadd : intAdd n 1 = n + 1 := by
        unfold intAdd
        exact wrapInt_of_range _ (by omega) (by omega)
      rw [countLoop, if_pos h0]
      rw [hadd, ih (clearLowest x) (n + 1) hlt (by omega) (by omega) (by rw [hpc] at hb; push_cast at hb; omega)]
      rw [hpc]; push_cast; congr 1; ring

theorem count_eq_popcount_aux (x : ChannelLayout) (hx : x < 2 ^ 64) :
    x.Count = some (popcount x : Int) := by
  have hle : popcount x ≤ 64 := setBits_length_le 64 x
  have := countLoop_eq 64 x 0 hx hle (le_refl 0) (by omega)
  simpa [ChannelLayout.Count] using this

theorem setBits_length_eq_bitIndices (w : Nat) :
    ∀ x : Nat, x < 2 ^ w → (setBits w x).length = x.bitIndices.length := by
  induction w with
  | zero => intro x hx; simp at hx; subst hx; simp [setBits]
  | succ w ih =>
    intro x hx
    rw [setBits_succ_length]
    have hk2 : x / 2 < 2 ^ w := by rw [pow_succ] at hx; omega
    rw [ih _ hk2]
    rcases Nat.mod_two_eq_zero_or_one x with h | h
    · obtain ⟨k, rfl⟩ : ∃ k, x = 2 * k := ⟨x / 2, by omega⟩
      simp
    · obtain ⟨k, rfl⟩ : ∃ k, x = 2 * k + 1 := ⟨x / 2, by omega⟩
      have e3 : (2 * k + 1) / 2 = k := by omega
      simp [e3]; omega

theorem popcount_sum_two_pow (s : Finset Nat) (hs : ∀ i ∈ s, i < 64) :
    (∑ i in s, 2 ^ i) < 2 ^ 64 ∧ popcount (∑ i in s, 2 ^ i) = s.card := by
  have hlt : (∑ i in s, 2 ^ i) < 2 ^ 64 := Nat.geomSum_lt (le_refl 2) hs
  refine ⟨hlt, ?_⟩
  unfold popcount
  rw [setBits_length_eq_bitIndices 64 _ hlt]
  have hsorted : List.Sorted (· < ·) (s.sort (· ≤ ·)) := Finset.sort_sorted_lt s
  have hsum : (∑ i in s, 2 ^ i) = ((s.sort (· ≤ ·)).map (fun i => 2 ^ i)).sum := by
    conv_lhs => rw [← Finset.sort_toFinset (· ≤ ·) s]
    rw [List.sum_toFinset _ (Finset.sort_nodup _ s)]
  rw [hsum, Nat.bitIndices_twoPowsum hsorted, Finset.length_sort]

/-- C7: for every 64-bit layout `x`, `Count` returns the number of set bits of
`x`, which is at most 64; hence a layout whose set bits are exactly the
positions of a set `s` of bit positions below 64 has `Count` equal to the
number of elements of `s`, named preset or not. -/
theorem count_is_popcount (x : ChannelLayout) (hx : IsUint64 x) :
    x.Count = some (popcount x : Int) ∧ popcount x ≤ 64 ∧
    ∀ s : Finset Nat, (∀ i ∈ s, i < 64) → x = ∑ i in s, 2 ^ i →
      x.Count = some (s.card : Int) := by
  refine ⟨count_eq_popcount_aux x hx, setBits_length_le 64 x, fun s hs hxs => ?_⟩
  rw [count_eq_popcount_aux x hx, hxs, (popcount_sum_two_pow s hs).2]

/-- C7 at the mask `0b100100101` (bits 0, 2, 5 and 8), which is no preset. -/
theorem count_is_popcount_witness :
    IsUint64 293 ∧ ChannelLayout.Count 293 = some ((popcount 293 : Nat) : Int) ∧
    popcount 293 = 4 ∧ (293 : Nat) = ∑ i in ({0, 2, 5, 8} : Finset Nat), 2 ^ i :=
  ⟨by decide, (count_is_popcount 293 (by decide)).1, by decide, by decide⟩

/-! ## Channel layout presets -/

/-- C10: the presets are the unions of speaker bits of their definitions and
have the channel counts 1, 2, 3, 3, 3 and 4. -/
theorem preset_counts :
    CH_MONO = CH_FRONT_CENTER ∧ CH_MONO.Count = some 1 ∧
    CH_STEREO = CH_FRONT_LEFT ||| CH_FRONT_RIGHT ∧ CH_STEREO.Count = some 2 ∧
    CH_2_1 = CH_STEREO ||| CH_BACK_CENTER ∧ CH_2_1.Count = some 3 ∧
    CH_2POINT1 = CH_STEREO ||| CH_LOW_FREQ ∧ CH_2POINT1.Count = some 3 ∧
    CH_SURROUND = CH_STEREO ||| CH_FRONT_CENTER ∧ CH_SURROUND.Count = some 3 ∧
    CH_3POINT1 = CH_SURROUND ||| CH_LOW_FREQ ∧ CH_3POINT1.Count = some 4 ∧
    [CH_FRONT_CENTER, CH_FRONT_LEFT, CH_FRONT_RIGHT, CH_BACK_CENTER, CH_LOW_FREQ]
      = [1, 2, 4, 8, 256] := by
  decide

/-! ## Slicing and concatenating frames: the loops -/

/-- When every plane passes the bounds check, the slicing loop returns the
window of every plane. -/
theorem sliceLoop_ok (lo hi : Int) :
    ∀ ps : List ByteSlice, (∀ p ∈ ps, 0 ≤ lo ∧ lo ≤ hi ∧ hi ≤ (p.cap : Int)) →
      sliceLoop lo hi ps = .ok (ps.map (fun p => p.window lo.toNat hi.toNat)) := by
  intro ps
  induction ps with
  | nil => intro _; rfl
  | cons p ps ih =>
    intro h
    have hp := h p (List.mem_cons_self p ps)
    have hps := ih (fun q hq => h q (List.mem_cons_of_mem p hq))
    simp only [sliceLoop, sliceExpr, if_pos hp, hps, List.map_cons]

/-- When some plane fails the bounds check, the slicing loop panics. -/
theorem sliceLoop_error (lo hi : Int) :
    ∀ ps : List ByteSlice, (∃ p ∈ ps, ¬(0 ≤ lo ∧ lo ≤ hi ∧ hi ≤ (p.cap : Int))) →
      sliceLoop lo hi ps = .error Panic.sliceBounds := by
  intro ps
  induction ps with
  | nil => rintro ⟨p, hp, _⟩; cases hp
  | cons p ps ih =>
    rintro ⟨q, hq, hbad⟩
    by_cases hp : 0 ≤ lo ∧ lo ≤ hi ∧ hi ≤ (p.cap : Int)
    · have hq2 : q ∈ ps := by
        rcases List.mem_cons.mp hq with rfl | h
        · exact absurd hp hbad
        · exact h
      simp only [sliceLoop, sliceExpr, if_pos hp, ih ⟨q, hq2, hbad⟩]
    · simp only [sliceLoop, sliceExpr, if_neg hp]

/-- A window that ends inside the exposed bytes is a range of those bytes. -/
theorem window_bytes_of_le (p : ByteSlice) (lo hi : Nat) (h : hi ≤ p.bytes.length) :
    (p.window lo hi).bytes = (p.bytes.take hi).drop lo := by
  simp only [ByteSlice.window, ByteSlice.backing]
  rw [List.take_append_of_le_length h]

/-- Appending exposes the old bytes followed by the new ones. -/
theorem appendBytes_bytes (s : ByteSlice) (t : List Byte) :
    (appendBytes s t).bytes = s.bytes ++ t := by
  unfold appendBytes
  split_ifs <;> rfl

/-- When `in` has a plane for every index the loop visits, the concatenation
loop appends plane by plane. -/
theorem concatLoop_ok (inData : List ByteSlice) :
    ∀ (ps : List ByteSlice) (i : Nat), i + ps.length ≤ inData.length →
      concatLoop inData i ps =
        .ok (List.zipWith (fun p q => appendBytes p q.bytes) ps (inData.drop i)) := by
  intro ps
  induction ps with
  | nil => intro i _; simp [concatLoop]
  | cons p ps ih =>
    intro i h
    have hi : i < inData.length := by simp only [List.length_cons] at h; omega
    have hrest := ih (i + 1) (by simp only [List.length_cons] at h; omega)
    have hdrop : inData.drop i = inData[i] :: inData.drop (i + 1) :=
      List.drop_eq_getElem_cons hi
    simp only [concatLoop, List.getElem?_eq_getElem hi, hrest, hdrop, List.zipWith_cons_cons]

/-- When `in` runs out of planes before the receiver does, the concatenation
loop panics on the index. -/
theorem concatLoop_error (inData : List ByteSlice) :
    ∀ (ps : List ByteSlice) (i : Nat), i ≤ inData.length → inData.length < i + ps.length →
      concatLoop inData i ps = .error Panic.indexOutOfRange := by
  intro ps
  induction ps with
  | nil => intro i h1 h2; simp only [List.length_nil] at h2; omega
  | cons p ps ih =>
    intro i h1 h2
    by_cases hi : i < inData.length
    · have hrest := ih (i + 1) (by omega) (by simp only [List.length_cons] at h2; omega)
      simp only [concatLoop, List.getElem?_eq_getElem hi, hrest]
    · have hnone : inData[i]? = none := List.getElem?_eq_none (by omega)
      simp only [concatLoop, hnone]

/-- The bytes of the planes the concatenation loop returns. -/
theorem zipWith_appendBytes_bytes :
    ∀ ps qs : List ByteSlice,
      (List.zipWith (fun p q => appendBytes p q.bytes) ps qs).map ByteSlice.bytes =
        List.zipWith (fun p q => p.bytes ++ q.bytes) ps qs := by
  intro ps
  induction ps with
  | nil => intro qs; simp
  | cons p ps ih =>
    intro qs
    cases qs with
    | nil => simp
    | cons q qs => simp [appendBytes_bytes, ih qs]

/-- The width of a sample is between 0 and 8 bytes. -/
theorem bytesPerSample_range (v : SampleFormat) :
    0 ≤ v.BytesPerSample ∧ v.BytesPerSample ≤ 8 := by
  unfold SampleFormat.BytesPerSample
  split_ifs <;> constructor <;> decide

/-- The byte offsets of an in-range slice do not overflow and pass the bounds
check of a plane that holds `end_ * size` bytes. -/
theorem slice_offsets (start end_ size : Int) (p : ByteSlice)
    (hs : 0 ≤ start) (hse : start ≤ end_) (hsize : 0 ≤ size)
    (hcap : IsInt (p.cap : Int)) (hlen : end_ * size ≤ (p.bytes.length : Int)) :
    intMul start size = start * size ∧ intMul end_ size = end_ * size ∧
      0 ≤ start * size ∧ start * size ≤ end_ * size ∧ end_ * size ≤ (p.cap : Int) := by
  have h0 : 0 ≤ start * size := mul_nonneg hs hsize
  have h1 : start * size ≤ end_ * size := mul_le_mul_of_nonneg_right hse hsize
  have h2 : (p.bytes.length : Int) ≤ (p.cap : Int) := by
    unfold ByteSlice.cap; push_cast; omega
  have h3 : (p.cap : Int) < 2 ^ 63 := hcap.2
  refine ⟨?_, ?_, h0, h1, le_trans hlen h2⟩
  · exact wrapInt_of_range _ (by omega) (by omega)
  · exact wrapInt_of_range _ (by omega) (by omega)

/-! ## Slice -/

/-- C1: for a frame `f` and `0 <= start <= end <= f.SampleCount`, where every
plane of `f` holds at least `end * BytesPerSample` bytes, `Slice` returns a
frame with `SampleCount = end - start`, the sample rate, format and layout of
`f`, as many planes as `f`, and as plane `i` the bytes of plane `i` of `f`
from offset `start * BytesPerSample` (inclusive) to `end * BytesPerSample`
(exclusive), which are `(end - start) * BytesPerSample` bytes. -/
theorem slice_in_range (f : AudioFrame) (start end_ : Int) (hf : f.Representable)
    (hs : 0 ≤ start) (hse : start ≤ end_) (hec : end_ ≤ f.SampleCount)
    (hlen : ∀ p ∈ f.Data, end_ * f.SampleFormat.BytesPerSample ≤ (p.bytes.length : Int)) :
    ∃ out, f.Slice start end_ = .ok out ∧
      out.SampleCount = end_ - start ∧
      out.SampleRate = f.SampleRate ∧ out.SampleFormat = f.SampleFormat ∧
      out.ChannelLayout = f.ChannelLayout ∧
      out.Data.length = f.Data.length ∧
      out.Data.map ByteSlice.bytes =
        f.Data.map (fun p =>
          (p.bytes.take (end_ * f.SampleFormat.BytesPerSample).toNat).drop
            (start * f.SampleFormat.BytesPerSample).toNat) ∧
      ∀ q ∈ out.Data, (q.bytes.length : Int) = (end_ - start) * f.SampleFormat.BytesPerSample := by
  obtain ⟨_, _, _, hcount, hcaps⟩ := hf
  have hsize := (bytesPerSample_range f.SampleFormat).1
  have hoff := fun p (hp : p ∈ f.Data) =>
    slice_offsets start end_ f.SampleFormat.BytesPerSample p hs hse hsize (hcaps p hp) (hlen p hp)
  have hloop := sliceLoop_ok (intMul start f.SampleFormat.BytesPerSample)
    (intMul end_ f.SampleFormat.BytesPerSample) f.Data (fun p hp => by
      obtain ⟨e1, e2, h0, h1, h2⟩ := hoff p hp
      rw [e1, e2]; exact ⟨h0, h1, h2⟩)
  have hsub : intSub end_ start = end_ - start := by
    have := hcount.2
    exact wrapInt_of_range _ (by omega) (by omega)
  have hbytes : ∀ p ∈ f.Data,
      (p.window (intMul start f.SampleFormat.BytesPerSample).toNat
        (intMul end_ f.SampleFormat.BytesPerSample).toNat).bytes =
      (p.bytes.take (end_ * f.SampleFormat.BytesPerSample).toNat).drop
        (start * f.SampleFormat.BytesPerSample).toNat := by
    intro p hp
    obtain ⟨e1, e2, h0, h1, h2⟩ := hoff p hp
    rw [e1, e2]
    exact window_bytes_of_le p _ _ (by have := hlen p hp; omega)
  refine ⟨{ f with
      SampleCount := intSub end_ start
      Data := f.Data.map (fun p =>
        p.window (intMul start f.SampleFormat.BytesPerSample).toNat
          (intMul end_ f.SampleFormat.BytesPerSample).toNat) },
    by simp only [AudioFrame.Slice, hloop], hsub, rfl, rfl, rfl, ?_, ?_, ?_⟩
  · simp
  · simp only [List.map_map]
    exact List.map_congr_left (fun p hp => hbytes p hp)
  · intro q hq
    obtain ⟨p, hp, rfl⟩ := List.mem_map.mp hq
    obtain ⟨e1, e2, h0, h1, h2⟩ := hoff p hp
    rw [hbytes p hp, List.length_drop, List.length_take]
    have := hlen p hp
    rw [sub_mul]
    omega

/-- C1 at `Slice(2,5)` of the 10-sample single-plane S16 frame: 3 samples and
one plane of 6 bytes, the source bytes at offsets 4 to 9. -/
theorem slice_in_range_witness :
    frame10.Representable ∧ (0 : Int) ≤ 2 ∧ (2 : Int) ≤ 5 ∧ (5 : Int) ≤ frame10.SampleCount ∧
    (∀ p ∈ frame10.Data, 5 * frame10.SampleFormat.BytesPerSample ≤ (p.bytes.length : Int)) ∧
    ∃ out, frame10.Slice 2 5 = .ok out ∧ out.SampleCount = 3 ∧
      out.Data.map ByteSlice.bytes = [[4, 5, 6, 7, 8, 9]] := by
  have hlen : ∀ p ∈ frame10.Data,
      5 * frame10.SampleFormat.BytesPerSample ≤ (p.bytes.length : Int) := by decide
  obtain ⟨out, h1, h2, _, _, _, _, h7, _⟩ :=
    slice_in_range frame10 2 5 (by decide) (by decide) (by decide) (by decide) hlen
  exact ⟨by decide, by decide, by decide, by decide, hlen, out, h1, by rw [h2]; decide,
    by rw [h7]; decide⟩

/-- C4 (as the code behaves): `Slice` does not compare its arguments with
`SampleCount`. With the unassigned format, of width 0, `Slice(5,2)` returns a
frame with `SampleCount = -3`; on a frame that declares 8 samples and whose
plane holds 20 bytes, `Slice(0,10)` returns a frame with 10 samples; on a
frame without planes `Slice(5,2)` returns a frame with `SampleCount = -3`. -/
theorem slice_unchecked_counterexample :
    (SampleFormat.BytesPerSample frameUnknown.SampleFormat = 0 ∧
      ¬((0 : Int) ≤ 5 ∧ (5 : Int) ≤ 2 ∧ (2 : Int) ≤ frameUnknown.SampleCount) ∧
      frameUnknown.Slice 5 2 =
        .ok { frameUnknown with
              SampleCount := -3
              Data := [⟨[], [0, 1, 2, 3, 4, 5, 6, 7, 8, 9, 10, 11, 12, 13, 14, 15, 16, 17, 18, 19]⟩] }) ∧
    (¬((0 : Int) ≤ 0 ∧ (0 : Int) ≤ 10 ∧ (10 : Int) ≤ 8) ∧
      AudioFrame.Slice { frame10 with SampleCount := 8 } 0 10 = .ok frame10) ∧
    AudioFrame.Slice { frame10 with Data := [] } 5 2 =
      .ok { frame10 with SampleCount := -3, Data := [] } := by
  decide

/-- C4 (amended): `Slice` makes no check against `SampleCount`. It fails, with
a slice-bounds panic, exactly when some plane `p` of the frame does not
satisfy `0 <= start*size <= end*size <= cap(p)` (`size = BytesPerSample`,
products of Go `int`), and otherwise returns a frame with `SampleCount =
end - start`. Hence, for a recognised format and byte offsets that do not
overflow: a negative `start` or `start > end` makes it fail on every frame
that has a plane, whatever the capacities; and `end > SampleCount` makes it
fail on every frame that has a plane of capacity at most
`SampleCount * size`. -/
theorem slice_out_of_range (f : AudioFrame) (start end_ : Int) :
    (f.Slice start end_ = .error Panic.sliceBounds ↔
      ∃ p ∈ f.Data, ¬(0 ≤ intMul start f.SampleFormat.BytesPerSample ∧
        intMul start f.SampleFormat.BytesPerSample ≤ intMul end_ f.SampleFormat.BytesPerSample ∧
        intMul end_ f.SampleFormat.BytesPerSample ≤ (p.cap : Int))) ∧
    ((∀ p ∈ f.Data, 0 ≤ intMul start f.SampleFormat.BytesPerSample ∧
        intMul start f.SampleFormat.BytesPerSample ≤ intMul end_ f.SampleFormat.BytesPerSample ∧
        intMul end_ f.SampleFormat.BytesPerSample ≤ (p.cap : Int)) →
      ∃ out, f.Slice start end_ = .ok out ∧ out.SampleCount = intSub end_ start) ∧
    (0 < f.SampleFormat.BytesPerSample → IsInt (start * f.SampleFormat.BytesPerSample) →
      IsInt (end_ * f.SampleFormat.BytesPerSample) → f.Data ≠ [] →
      (start < 0 ∨ end_ < start) → f.Slice start end_ = .error Panic.sliceBounds) ∧
    (0 < f.SampleFormat.BytesPerSample → IsInt (start * f.SampleFormat.BytesPerSample) →
      IsInt (end_ * f.SampleFormat.BytesPerSample) → f.SampleCount < end_ →
      (∃ p ∈ f.Data, (p.cap : Int) ≤ f.SampleCount * f.SampleFormat.BytesPerSample) →
      f.Slice start end_ = .error Panic.sliceBounds) := by
  have herr : (∃ p ∈ f.Data, ¬(0 ≤ intMul start f.SampleFormat.BytesPerSample ∧
        intMul start f.SampleFormat.BytesPerSample ≤ intMul end_ f.SampleFormat.BytesPerSample ∧
        intMul end_ f.SampleFormat.BytesPerSample ≤ (p.cap : Int))) →
      f.Slice start end_ = .error Panic.sliceBounds := by
    intro h
    have hloop := sliceLoop_error _ _ f.Data h
    simp only [AudioFrame.Slice, hloop]
  have hok : (∀ p ∈ f.Data, 0 ≤ intMul start f.SampleFormat.BytesPerSample ∧
        intMul start f.SampleFormat.BytesPerSample ≤ intMul end_ f.SampleFormat.BytesPerSample ∧
        intMul end_ f.SampleFormat.BytesPerSample ≤ (p.cap : Int)) →
      ∃ out, f.Slice start end_ = .ok out ∧ out.SampleCount = intSub end_ start := by
    intro h
    have hloop := sliceLoop_ok _ _ f.Data h
    exact ⟨{ f with
        SampleCount := intSub end_ start
        Data := f.Data.map (fun p =>
          p.window (intMul start f.SampleFormat.BytesPerSample).toNat
            (intMul end_ f.SampleFormat.BytesPerSample).toNat) },
      by simp only [AudioFrame.Slice, hloop], rfl⟩
  refine ⟨⟨fun h => ?_, herr⟩, hok, ?_, ?_⟩
  · by_contra hno
    obtain ⟨out, hout, _⟩ := hok (fun p hp => by
      by_contra hbad
      exact hno ⟨p, hp, hbad⟩)
    rw [hout] at h
    cases h
  · intro hsize hlo hhi hne hviol
    obtain ⟨p, hp⟩ := List.exists_mem_of_ne_nil f.Data hne
    apply herr
    refine ⟨p, hp, ?_⟩
    rw [show intMul start f.SampleFormat.BytesPerSample = start * f.SampleFormat.BytesPerSample
        from wrapInt_of_range _ hlo.1 hlo.2,
      show intMul end_ f.SampleFormat.BytesPerSample = end_ * f.SampleFormat.BytesPerSample
        from wrapInt_of_range _ hhi.1 hhi.2]
    rintro ⟨h0, h1, _⟩
    rcases hviol with hneg | hinv
    · have := mul_neg_of_neg_of_pos hneg hsize
      omega
    · have := mul_lt_mul_of_pos_right hinv hsize
      omega
  · intro hsize hlo hhi hbig hplane
    obtain ⟨p, hp, hcap⟩ := hplane
    apply herr
    refine ⟨p, hp, ?_⟩
    rw [show intMul start f.SampleFormat.BytesPerSample = start * f.SampleFormat.BytesPerSample
        from wrapInt_of_range _ hlo.1 hlo.2,
      show intMul end_ f.SampleFormat.BytesPerSample = end_ * f.SampleFormat.BytesPerSample
        from wrapInt_of_range _ hhi.1 hhi.2]
    rintro ⟨_, _, h2⟩
    have := mul_lt_mul_of_pos_right hbig hsize
    omega

/-- C4 (amended) at the 10-sample S16 frame: `Slice(2,11)` and `Slice(5,2)`
fail; and at the frame `Slice(2,5)` returns, whose plane has capacity 16 for 3
samples: `Slice(-1,2)` fails, while `Slice(0,5)` returns a frame of 5 samples. -/
theorem slice_out_of_range_witness :
    frame10.Slice 2 11 = .error Panic.sliceBounds ∧
    frame10.Slice 5 2 = .error Panic.sliceBounds ∧
    (∀ g, frame10.Slice 2 5 = .ok g →
      g.SampleCount = 3 ∧ g.Slice (-1) 2 = .error Panic.sliceBounds ∧
      (g.Slice 0 5).map (fun o => o.SampleCount) = .ok 5) := by
  refine ⟨?_, ?_, ?_⟩
  · exact (slice_out_of_range frame10 2 11).2.2.2 (by decide) (by decide) (by decide) (by decide)
      ⟨_, List.mem_cons_self _ _, by decide⟩
  · exact (slice_out_of_range frame10 5 2).2.2.1 (by decide) (by decide) (by decide) (by decide)
      (Or.inr (by decide))
  · intro g hg
    have hval : frame10.Slice 2 5 = .ok ⟨8000, S16, CH_MONO, 3,
        [⟨[4, 5, 6, 7, 8, 9], [10, 11, 12, 13, 14, 15, 16, 17, 18, 19]⟩]⟩ := by decide
    rw [hval] at hg
    injection hg with hg
    subst hg
    exact ⟨rfl, by decide, by decide⟩

/-! ## Concat -/

/-- When `b` has a plane for every plane of `a`, `Concat` returns the frame of
`a` with the sample counts added and the planes appended. -/
theorem concat_ok (a b : AudioFrame) (h : a.Data.length ≤ b.Data.length) :
    a.Concat b = .ok { a with
      SampleCount := intAdd a.SampleCount b.SampleCount
      Data := List.zipWith (fun p q => appendBytes p q.bytes) a.Data b.Data } := by
  have hloop := concatLoop_ok b.Data a.Data 0 (by omega)
  simp only [AudioFrame.Concat, hloop, List.drop_zero]

/-- When `b` has fewer planes than `a`, `Concat` panics on the plane index. -/
theorem concat_error (a b : AudioFrame) (h : b.Data.length < a.Data.length) :
    a.Concat b = .error Panic.indexOutOfRange := by
  have hloop := concatLoop_error b.Data a.Data 0 (Nat.zero_le _) (by omega)
  simp only [AudioFrame.Concat, hloop]

/-- Splitting appended planes at the length of the first operand gives the
operands back. -/
theorem zipWith_append_split (n : Nat) :
    ∀ ps qs : List ByteSlice, ps.length = qs.length → (∀ p ∈ ps, p.bytes.length = n) →
      (List.zipWith (fun p q => p.bytes ++ q.bytes) ps qs).map (fun r => r.take n) =
          ps.map ByteSlice.bytes ∧
      (List.zipWith (fun p q => p.bytes ++ q.bytes) ps qs).map (fun r => r.drop n) =
          qs.map ByteSlice.bytes := by
  intro ps
  induction ps with
  | nil =>
    intro qs hl _
    have : qs = [] := List.length_eq_zero.mp hl.symm
    subst this
    simp
  | cons p ps ih =>
    intro qs hl hn
    cases qs with
    | nil => simp at hl
    | cons q qs =>
      have hp : p.bytes.length = n := hn p (List.mem_cons_self p ps)
      obtain ⟨h1, h2⟩ := ih qs (by simpa using hl) (fun r hr => hn r (List.mem_cons_of_mem p hr))
      constructor
      · simp only [List.zipWith_cons_cons, List.map_cons, h1]
        rw [← hp, List.take_left]
      · simp only [List.zipWith_cons_cons, List.map_cons, h2]
        rw [← hp, List.drop_left]

/-- Planes of the second operand beyond the length of the first play no part
in a `zipWith`. -/
theorem zipWith_take_right {α β γ : Type} (g : α → β → γ) :
    ∀ (ps : List α) (qs : List β), List.zipWith g ps (qs.take ps.length) = List.zipWith g ps qs := by
  intro ps
  induction ps with
  | nil => intro qs; simp
  | cons p ps ih =>
    intro qs
    cases qs with
    | nil => simp
    | cons q qs => simp [ih qs]

/-! ## Codec descriptors -/

/-- C11: `NewPCMMulawCodecData()` returns a descriptor with sample rate 8000,
layout CH_MONO, format S16, `IsAudio` true, `IsVideo` false and type
PCM_MULAW, the tag 0x266, which differs from H264 = 0x264 and AAC = 0x265. -/
theorem newPCMMulawCodecData_fields :
    NewPCMMulawCodecData.SampleRate = 8000 ∧
    NewPCMMulawCodecData.ChannelLayout = CH_MONO ∧
    NewPCMMulawCodecData.SampleFormat = S16 ∧
    NewPCMMulawCodecData.IsAudio = true ∧
    NewPCMMulawCodecData.IsVideo = false ∧
    NewPCMMulawCodecData.Type_ = PCM_MULAW ∧
    PCM_MULAW = 0x266 ∧ H264 = 0x264 ∧ AAC = 0x265 ∧
    PCM_MULAW ≠ H264 ∧ PCM_MULAW ≠ AAC ∧ H264 ≠ AAC := by
  decide

/-- C12: every `BasicAudioCodecData` value, whatever its fields hold, answers
`IsAudio` with true and `IsVideo` with false, so exactly one of the two is
true, also for the type tag H264; and its four accessors return the stored
fields unchanged. -/
theorem basicAudioCodecData_accessors (d : BasicAudioCodecData) :
    d.IsAudio = true ∧ d.IsVideo = false ∧ d.IsAudio ≠ d.IsVideo ∧
    BasicAudioCodecData.IsAudio { d with CodecType := H264 } = true ∧
    BasicAudioCodecData.IsVideo { d with CodecType := H264 } = false ∧
    d.Type_ = d.CodecType ∧
    d.SampleRate = d.CodecSampleRate ∧
    d.ChannelLayout = d.CodecChannelLayout ∧
    d.SampleFormat = d.CodecSampleFormat := by
  refine ⟨rfl, rfl, ?_, rfl, rfl, rfl, rfl, rfl, rfl⟩
  simp [BasicAudioCodecData.IsAudio, BasicAudioCodecData.IsVideo]

/-! ## Display names -/

/-- Outside `1 .. 11` no case of the `switch` of `String` matches. -/
theorem string_outside (v : SampleFormat) (h : v ≤ 0 ∨ 12 ≤ v) : v.String = "?" := by
  unfold SampleFormat.String U8 U8P S16 S16P FLT FLTP S32 U32 DBL DBLP
  delta SampleFormat at *
  rw [if_neg (by omega), if_neg (by omega), if_neg (by omega), if_neg (by omega),
    if_neg (by omega), if_neg (by omega), if_neg (by omega), if_neg (by omega),
    if_neg (by omega), if_neg (by omega)]

/-- C14 (as the code behaves): `String` has no case for S32P, so the
enumerated format S32P is displayed as "?"; `String` returns "?" exactly for
the values outside the enumeration and for S32P, and the other ten formats
are displayed by their own identifiers. -/
theorem string_misses_S32P :
    S32P ∈ enumerated ∧ SampleFormat.String S32P = "?" ∧
    (∀ v : SampleFormat, v.String = "?" ↔ v ∉ enumerated ∨ v = S32P) ∧
    [U8, S16, S32, FLT, DBL, U8P, S16P, FLTP, DBLP, U32].map SampleFormat.String =
      ["U8", "S16", "S32", "FLT", "DBL", "U8P", "S16P", "FLTP", "DBLP", "U32"] := by
  refine ⟨by decide, by decide, fun v => ?_, by decide⟩
  have hc : (v ≤ 0 ∨ 12 ≤ v) ∨ (1 ≤ v ∧ v ≤ 11) := by delta SampleFormat at *; omega
  rcases hc with h | ⟨h1, h2⟩
  · rw [string_outside v h]
    simp only [enumerated, U8, S16, S32, FLT, DBL, U8P, S16P, S32P, FLTP, DBLP, U32,
      List.mem_cons, List.mem_singleton, List.not_mem_nil, or_false, true_iff]
    delta SampleFormat at *
    left
    omega
  · delta SampleFormat at *
    interval_cases v <;> decide

/-! ## The bit algebra of channel counts -/

/-- Counting with two predicates: the counts of "either" and "both" add up to
the counts of each. -/
theorem filter_or_and_length {α : Type} (p q : α → Bool) :
    ∀ l : List α,
      (l.filter (fun i => p i || q i)).length + (l.filter (fun i => p i && q i)).length =
        (l.filter p).length + (l.filter q).length := by
  intro l
  induction l with
  | nil => rfl
  | cons x xs ih =>
    simp only [List.filter_cons]
    cases hp : p x <;> cases hq : q x <;> simp <;> omega

/-- The population counts of union and intersection add up to those of the
operands. -/
theorem popcount_or_and (a b : Nat) :
    popcount (a ||| b) + popcount (a &&& b) = popcount a + popcount b := by
  unfold popcount setBits
  have h := filter_or_and_length (fun i => a.testBit i) (fun i => b.testBit i) (List.range 64)
  simpa only [Nat.testBit_or, Nat.testBit_and] using h

/-- Only the zero mask has population count 0. -/
theorem popcount_eq_zero_iff (x : Nat) (hx : x < 2 ^ 64) : popcount x = 0 ↔ x = 0 := by
  constructor
  · intro h
    by_contra h0
    have := setBits_pred_and_self 64 x (Nat.pos_of_ne_zero h0) hx
    unfold popcount at h
    omega
  · rintro rfl
    exact setBits_zero_length 64

/-- C19: for 64-bit layouts `a` and `b`, the counts of `a|b` and `a&b` add up
to the counts of `a` and `b`; when `a` and `b` share no bit, the count of
`a|b` is the sum of the two counts; the zero mask has count 0, and it is the
only mask with count 0. -/
theorem count_additive (a b : ChannelLayout) (ha : IsUint64 a) (hb : IsUint64 b) :
    (∃ u i p q : Int,
      (a ||| b).Count = some u ∧ (a &&& b).Count = some i ∧
      a.Count = some p ∧ b.Count = some q ∧
      u + i = p + q ∧ (a &&& b = 0 → u = p + q)) ∧
    ChannelLayout.Count 0 = some 0 ∧
    (a.Count = some 0 ↔ a = 0) := by
  have hor : a ||| b < 2 ^ 64 := Nat.or_lt_two_pow ha hb
  have hand : a &&& b < 2 ^ 64 := lt_of_le_of_lt Nat.and_le_left ha
  have hsum := popcount_or_and a b
  refine ⟨⟨_, _, _, _, count_eq_popcount_aux _ hor, count_eq_popcount_aux _ hand,
    count_eq_popcount_aux a ha, count_eq_popcount_aux b hb, ?_, fun hdis => ?_⟩, by decide, ?_⟩
  · exact_mod_cast hsum
  · rw [hdis, (popcount_eq_zero_iff 0 (by decide)).mpr rfl] at hsum
    exact_mod_cast hsum
  · rw [count_eq_popcount_aux a ha]
    constructor
    · intro h
      have h2 : (popcount a : Int) = 0 := by simpa using h
      exact (popcount_eq_zero_iff a ha).mp (by exact_mod_cast h2)
    · intro h
      rw [(popcount_eq_zero_iff a ha).mpr h]
      rfl

/-- C19 at stereo and 2.1, which share the two front bits: 3 + 2 = 2 + 3. -/
theorem count_additive_witness :
    IsUint64 CH_STEREO ∧ IsUint64 CH_2_1 ∧
    (CH_STEREO ||| CH_2_1).Count = some 3 ∧ (CH_STEREO &&& CH_2_1).Count = some 2 ∧
    ∃ u i p q : Int,
      (CH_STEREO ||| CH_2_1).Count = some u ∧ (CH_STEREO &&& CH_2_1).Count = some i ∧
      CH_STEREO.Count = some p ∧ CH_2_1.Count = some q ∧ u + i = p + q := by
  obtain ⟨u, i, p, q, h1, h2, h3, h4, h5, _⟩ :=
    (count_additive CH_STEREO CH_2_1 (by decide) (by decide)).1
  exact ⟨by decide, by decide, by decide, by decide, u, i, p, q, h1, h2, h3, h4, h5⟩

/-! ## Termination of the counting loop -/

/-- Below `2 ^ w`, `(x - 1) &&& x` is `x` with its lowest set bit, at some
position `k < w`, cleared. -/
theorem lowest_bit_cleared (w : Nat) :
    ∀ x : Nat, 0 < x → x < 2 ^ w →
      ∃ k, k < w ∧ x.testBit k = true ∧ (∀ i, i < k → x.testBit i = false) ∧
        (x - 1) &&& x = x - 2 ^ k ∧ 2 ^ k ≤ x ∧
        ∀ i, ((x - 1) &&& x).testBit i = (x.testBit i && decide (i ≠ k)) := by
  induction w with
  | zero => intro x h0 hx; simp at hx; omega
  | succ w ih =>
    intro x h0 hx
    rcases Nat.mod_two_eq_zero_or_one x with h | h
    · obtain ⟨m, rfl⟩ : ∃ m, x = 2 * m := ⟨x / 2, by omega⟩
      have hm : 0 < m := by omega
      have hm2 : m < 2 ^ w := by rw [pow_succ] at hx; omega
      obtain ⟨k, hk, hbit, hlow, hsub, hle, hbits⟩ := ih m hm hm2
      have hhalf : 2 * m / 2 = m := by omega
      refine ⟨k + 1, by omega, ?_, ?_, ?_, ?_, ?_⟩
      · rw [Nat.testBit_succ, hhalf]; exact hbit
      · intro i hi
        cases i with
        | zero => simp [Nat.testBit_zero]
        | succ j => rw [Nat.testBit_succ, hhalf]; exact hlow j (by omega)
      · rw [pred_and_self_even m hm, hsub, pow_succ]; omega
      · rw [pow_succ]; omega
      · intro i
        rw [pred_and_self_even m hm]
        cases i with
        | zero => simp [Nat.testBit_zero]
        | succ j =>
          have hhalf2 : 2 * ((m - 1) &&& m) / 2 = (m - 1) &&& m := by omega
          rw [Nat.testBit_succ, Nat.testBit_succ, hhalf, hhalf2, hbits j]
          simp
    · obtain ⟨m, rfl⟩ : ∃ m, x = 2 * m + 1 := ⟨x / 2, by omega⟩
      refine ⟨0, by omega, ?_, ?_, ?_, ?_, ?_⟩
      · simp [Nat.testBit_zero]; omega
      · intro i hi; omega
      · rw [pred_and_self_odd m]; simp
      · simp
      · intro i
        rw [pred_and_self_odd m]
        cases i with
        | zero => simp [Nat.testBit_zero]
        | succ j =>
          have e1 : 2 * m / 2 = m := by omega
          have e2 : (2 * m + 1) / 2 = m := by omega
          rw [Nat.testBit_succ, Nat.testBit_succ, e1, e2]
          simp

/-- One step of the loop on a nonzero 64-bit mask stays a 64-bit mask and
has one set bit fewer. -/
theorem clearLowest_step (x : Nat) (h0 : x ≠ 0) (hx : x < 2 ^ 64) :
    clearLowest x < 2 ^ 64 ∧ clearLowest x < x ∧
      popcount (clearLowest x) + 1 = popcount x := by
  have hstep := setBits_pred_and_self 64 x (Nat.pos_of_ne_zero h0) hx
  rw [← clearLowest_eq x h0 hx] at hstep
  have hle : clearLowest x ≤ x - 1 := by
    rw [clearLowest_eq x h0 hx]; exact Nat.and_le_left
  have hlt : clearLowest x < x :=
    lt_of_le_of_lt hle (Nat.sub_lt (Nat.pos_of_ne_zero h0) Nat.one_pos)
  exact ⟨lt_trans hlt hx, hlt, hstep⟩

/-- The step reaches zero after exactly `popcount x` applications. -/
theorem iterate_clearLowest (n : Nat) :
    ∀ x : Nat, x < 2 ^ 64 → popcount x = n →
      Nat.iterate clearLowest n x = 0 ∧ ∀ j, j < n → Nat.iterate clearLowest j x ≠ 0 := by
  induction n with
  | zero =>
    intro x hx hp
    exact ⟨(popcount_eq_zero_iff x hx).mp hp, fun j hj => by omega⟩
  | succ n ih =>
    intro x hx hp
    have h0 : x ≠ 0 := by
      intro h
      rw [(popcount_eq_zero_iff x hx).mpr h] at hp
      omega
    obtain ⟨hlt, _, hpc⟩ := clearLowest_step x h0 hx
    obtain ⟨hz, hnz⟩ := ih (clearLowest x) hlt (by omega)
    refine ⟨by rw [Function.iterate_succ_apply]; exact hz, fun j hj => ?_⟩
    cases j with
    | zero => simpa using h0
    | succ i =>
      rw [Function.iterate_succ_apply]
      exact hnz i (by omega)

/-- With less fuel than set bits the loop does not finish. -/
theorem countLoop_short (fuel : Nat) :
    ∀ (x : Nat) (n : Int), x < 2 ^ 64 → fuel < popcount x → countLoop fuel x n = none := by
  induction fuel with
  | zero =>
    intro x n hx hp
    have h0 : x ≠ 0 := by
      intro h
      rw [(popcount_eq_zero_iff x hx).mpr h] at hp
      omega
    rw [countLoop, if_pos h0]
  | succ fuel ih =>
    intro x n hx hp
    have h0 : x ≠ 0 := by
      intro h
      rw [(popcount_eq_zero_iff x hx).mpr h] at hp
      omega
    obtain ⟨hlt, _, hpc⟩ := clearLowest_step x h0 hx
    rw [countLoop, if_pos h0]
    exact ih (clearLowest x) _ hlt (by omega)

/-- C13: on a nonzero 64-bit mask `x` the step `x -> (x-1) & x` clears exactly
the lowest set bit of `x`: the result has one set bit fewer and is strictly
smaller. So for every layout the loop of `Count` reaches zero after exactly
`popcount x` steps, not earlier, and `popcount x` is at most 64: run with that
much fuel the loop returns `popcount x`, with less it does not finish. -/
theorem count_terminates (x : ChannelLayout) (hx : IsUint64 x) :
    (x ≠ 0 → ∃ k, k < 64 ∧ x.testBit k = true ∧ (∀ i, i < k → x.testBit i = false) ∧
      (∀ i, (clearLowest x).testBit i = (x.testBit i && decide (i ≠ k))) ∧
      clearLowest x = x - 2 ^ k ∧
      popcount (clearLowest x) + 1 = popcount x ∧ clearLowest x < x) ∧
    Nat.iterate clearLowest (popcount x) x = 0 ∧
    (∀ j, j < popcount x → Nat.iterate clearLowest j x ≠ 0) ∧
    countLoop (popcount x) x 0 = some (popcount x : Int) ∧
    (∀ fuel, fuel < popcount x → countLoop fuel x 0 = none) ∧
    popcount x ≤ 64 ∧ x.Count = some (popcount x : Int) := by
  have hle : popcount x ≤ 64 := setBits_length_le 64 x
  obtain ⟨hz, hnz⟩ := iterate_clearLowest (popcount x) x hx rfl
  refine ⟨fun h0 => ?_, hz, hnz, ?_, fun fuel hf => countLoop_short fuel x 0 hx hf, hle,
    count_eq_popcount_aux x hx⟩
  · obtain ⟨k, hk, hbit, hlow, hsub, _, hbits⟩ :=
      lowest_bit_cleared 64 x (Nat.pos_of_ne_zero h0) hx
    obtain ⟨_, hlt, hpc⟩ := clearLowest_step x h0 hx
    rw [← clearLowest_eq x h0 hx] at hsub hbits
    exact ⟨k, hk, hbit, hlow, hbits, hsub, hpc, hlt⟩
  · have := countLoop_eq (popcount x) x 0 hx (le_refl _) (le_refl 0) (by omega)
    simpa using this

/-- C13 at the mask `0b101000` (bits 3 and 5): the step clears bit 3, and the
loop takes exactly two steps. -/
theorem count_terminates_witness :
    IsUint64 40 ∧ clearLowest 40 = 32 ∧ popcount 40 = 2 ∧
    Nat.iterate clearLowest (popcount 40) 40 = 0 ∧
    (∀ j, j < popcount 40 → Nat.iterate clearLowest j 40 ≠ 0) ∧
    countLoop 1 40 0 = none ∧ ChannelLayout.Count 40 = some 2 := by
  obtain ⟨_, h2, h3, _, _, _, _⟩ := count_terminates 40 (by decide)
  exact ⟨by decide, by decide, by decide, h2, h3, by decide, by decide⟩

/-! ## The effect of Slice on the caller's frame -/

/-- C15 (as the code behaves): `Slice` stores the sliced planes into the array
of plane headers it shares with the caller's frame. After `f.Slice(2,5)` on
the 10-sample S16 frame the caller's `f` still has `SampleCount` 10 but its
plane is the 6 bytes at offsets 4 to 9, and a second `f.Slice(2,5)` returns
the bytes at offsets 8 to 13 instead of 4 to 9. In general, after a call that
returns, the planes of the caller's frame are the planes of the returned
frame. -/
theorem slice_changes_caller :
    ref10.read store10 = frame10 ∧
    (sliceTwice store10 ref10 2 5).map
        (fun r => (r.1.SampleCount, r.1.Data.map ByteSlice.bytes)) =
      .ok (3, [[4, 5, 6, 7, 8, 9]]) ∧
    (sliceTwice store10 ref10 2 5).map
        (fun r => (r.2.1.SampleCount, r.2.1.Data.map ByteSlice.bytes)) =
      .ok (10, [[4, 5, 6, 7, 8, 9]]) ∧
    (sliceTwice store10 ref10 2 5).map
        (fun r => (r.2.2.SampleCount, r.2.2.Data.map ByteSlice.bytes)) =
      .ok (3, [[8, 9, 10, 11, 12, 13]]) ∧
    ∀ (st st1 : Store) (f out : FrameRef) (start end_ : Int),
      f.Slice st start end_ = .ok (out, st1) →
        (f.read st1).SampleCount = f.SampleCount ∧ (f.read st1).Data = (out.read st1).Data := by
  refine ⟨by decide, by decide, by decide, by decide, ?_⟩
  intro st st1 f out start end_ h
  simp only [FrameRef.Slice] at h
  split at h
  · cases h
  · injection h with h
    injection h with h1 h2
    subst h1
    exact ⟨rfl, rfl⟩

/-! ## Well-formed frames -/

/-- An in-range `Slice` returns the frame of `f` with `end - start` samples
and the window of every plane. -/
theorem slice_value (f : AudioFrame) (start end_ : Int) (hf : f.Representable)
    (hs : 0 ≤ start) (hse : start ≤ end_) (hec : end_ ≤ f.SampleCount)
    (hlen : ∀ p ∈ f.Data, end_ * f.SampleFormat.BytesPerSample ≤ (p.bytes.length : Int)) :
    f.Slice start end_ = .ok { f with
      SampleCount := end_ - start
      Data := f.Data.map (fun p =>
        p.window (start * f.SampleFormat.BytesPerSample).toNat
          (end_ * f.SampleFormat.BytesPerSample).toNat) } := by
  obtain ⟨_, _, _, hcount, hcaps⟩ := hf
  have hsize := (bytesPerSample_range f.SampleFormat).1
  have hoff := fun p (hp : p ∈ f.Data) =>
    slice_offsets start end_ f.SampleFormat.BytesPerSample p hs hse hsize (hcaps p hp) (hlen p hp)
  have hloop := sliceLoop_ok (intMul start f.SampleFormat.BytesPerSample)
    (intMul end_ f.SampleFormat.BytesPerSample) f.Data (fun p hp => by
      obtain ⟨e1, e2, h0, h1, h2⟩ := hoff p hp
      rw [e1, e2]; exact ⟨h0, h1, h2⟩)
  have hsub : intSub end_ start = end_ - start := by
    have := hcount.2
    exact wrapInt_of_range _ (by omega) (by omega)
  have hmap : f.Data.map (fun p =>
        p.window (intMul start f.SampleFormat.BytesPerSample).toNat
          (intMul end_ f.SampleFormat.BytesPerSample).toNat) =
      f.Data.map (fun p =>
        p.window (start * f.SampleFormat.BytesPerSample).toNat
          (end_ * f.SampleFormat.BytesPerSample).toNat) := by
    apply List.map_congr_left
    intro p hp
    obtain ⟨e1, e2, _, _, _⟩ := hoff p hp
    rw [e1, e2]
  simp only [AudioFrame.Slice, hloop, hsub, hmap]

/-- The number of bytes a window inside the exposed bytes holds. -/
theorem window_bytes_length (p : ByteSlice) (lo hi : Nat) (h : hi ≤ p.bytes.length) :
    (p.window lo hi).bytes.length = hi - lo := by
  rw [window_bytes_of_le p lo hi h, List.length_drop, List.length_take]
  omega

/-- The capacity of a window. -/
theorem window_cap (p : ByteSlice) (lo hi : Nat) (h1 : lo ≤ hi) (h2 : hi ≤ p.cap) :
    (p.window lo hi).cap = p.cap - lo := by
  unfold ByteSlice.cap at *
  simp only [ByteSlice.window, ByteSlice.backing, List.length_drop, List.length_take,
    List.length_append]
  omega

/-- Frames of the same format have the same sample format. -/
theorem hasSameFormat_format (a b : AudioFrame) (h : a.HasSameFormat b = true) :
    a.SampleFormat = b.SampleFormat := by
  simp only [AudioFrame.HasSameFormat] at h
  split_ifs at h with h1 h2 h3
  exact not_not.mp h3

/-- The lengths of appended planes add up. -/
theorem zipWith_appendBytes_length (m n : Int) :
    ∀ ps qs : List ByteSlice,
      (∀ p ∈ ps, (p.bytes.length : Int) = m) → (∀ q ∈ qs, (q.bytes.length : Int) = n) →
      ∀ r ∈ List.zipWith (fun p q => appendBytes p q.bytes) ps qs,
        (r.bytes.length : Int) = m + n := by
  intro ps
  induction ps with
  | nil => intro qs _ _ r hr; simp at hr
  | cons p ps ih =>
    intro qs hp hq r hr
    cases qs with
    | nil => simp at hr
    | cons q qs =>
      simp only [List.zipWith_cons_cons, List.mem_cons] at hr
      rcases hr with rfl | hr
      · rw [appendBytes_bytes, List.length_append]
        push_cast
        rw [hp p (List.mem_cons_self p ps), hq q (List.mem_cons_self q qs)]
      · exact ih qs (fun x hx => hp x (List.mem_cons_of_mem p hx))
          (fun x hx => hq x (List.mem_cons_of_mem q hx)) r hr

/-! ## Composition of slices -/

/-- The backing array of a window starts at the lower bound. -/
theorem window_backing (p : ByteSlice) (lo hi : Nat) (h1 : lo ≤ hi) (h2 : hi ≤ p.cap) :
    (p.window lo hi).backing = p.backing.drop lo := by
  have hB : p.backing.length = p.cap := by
    simp [ByteSlice.backing, ByteSlice.cap]
  have hlo : lo ≤ (p.backing.take hi).length := by
    rw [List.length_take, hB]; omega
  show (p.backing.take hi).drop lo ++ p.backing.drop hi = p.backing.drop lo
  rw [← List.drop_append_of_le_length hlo, List.take_append_drop]

/-- A window of a window is a window, with the lower bounds added. -/
theorem window_window (p : ByteSlice) (lo hi lo2 hi2 : Nat) (h1 : lo ≤ hi) (h2 : hi ≤ p.cap) :
    (p.window lo hi).window lo2 hi2 = p.window (lo + lo2) (lo + hi2) := by
  have hb := window_backing p lo hi h1 h2
  show ByteSlice.mk (((p.window lo hi).backing.take hi2).drop lo2)
      ((p.window lo hi).backing.drop hi2) = _
  rw [hb, List.take_drop, List.drop_drop, List.drop_drop]
  rfl

/-- A window over exactly the exposed bytes is the slice itself. -/
theorem window_self (p : ByteSlice) : p.window 0 p.bytes.length = p := by
  show ByteSlice.mk (((p.bytes ++ p.spare).take p.bytes.length).drop 0)
      ((p.bytes ++ p.spare).drop p.bytes.length) = p
  rw [List.take_left, List.drop_left, List.drop_zero]

/-- The call on a struct value in memory returns what the call on the frame it
denotes returns. -/
theorem frameRef_slice_ok (st : Store) (r : FrameRef) (start end_ : Int) (out : AudioFrame)
    (hd : r.Data < st.length) (h : (r.read st).Slice start end_ = .ok out) :
    ∃ g st1, r.Slice st start end_ = .ok (g, st1) ∧ g.read st1 = out ∧
      g.Data < st1.length := by
  simp only [AudioFrame.Slice, FrameRef.read] at h
  simp only [FrameRef.Slice]
  split at h
  · cases h
  · rename_i planes hloop
    injection h with h
    subst h
    refine ⟨_, _, rfl, ?_, ?_⟩
    · simp [FrameRef.read, List.getD_eq_getElem?_getD, hd]
    · simpa using hd

/-- C18: for a well-formed frame `f`, `0 <= s <= e <= f.SampleCount` and
`0 <= s2 <= e2 <= e - s`, the frame `f.Slice(s,e).Slice(s2,e2)` is the frame
`f.Slice(s+s2, s+e2)`, in every field and in every plane; `f.Slice(0,
f.SampleCount)` is `f`; and the chain of two calls run in memory on a struct
value of `f` yields that same frame. -/
theorem slice_compose (f : AudioFrame) (s e s2 e2 : Int)
    (hf : f.Representable) (hwf : f.WellFormed)
    (hs : 0 ≤ s) (hse : s ≤ e) (hec : e ≤ f.SampleCount)
    (hs2 : 0 ≤ s2) (hse2 : s2 ≤ e2) (hec2 : e2 ≤ e - s) :
    (∃ g out, f.Slice s e = .ok g ∧ g.Slice s2 e2 = .ok out ∧
      f.Slice (s + s2) (s + e2) = .ok out) ∧
    f.Slice 0 f.SampleCount = .ok f ∧
    ∀ (st : Store) (r : FrameRef), r.read st = f → r.Data < st.length →
      ∃ g st1 out st2, r.Slice st s e = .ok (g, st1) ∧ g.Slice st1 s2 e2 = .ok (out, st2) ∧
        f.Slice (s + s2) (s + e2) = .ok (out.read st2) := by
  have hsz := (bytesPerSample_range f.SampleFormat).1
  have m0 : 0 ≤ s * f.SampleFormat.BytesPerSample := mul_nonneg hs hsz
  have m1 : s * f.SampleFormat.BytesPerSample ≤ e * f.SampleFormat.BytesPerSample :=
    mul_le_mul_of_nonneg_right hse hsz
  have m2 : e * f.SampleFormat.BytesPerSample ≤ f.SampleCount * f.SampleFormat.BytesPerSample :=
    mul_le_mul_of_nonneg_right hec hsz
  have m3 : 0 ≤ s2 * f.SampleFormat.BytesPerSample := mul_nonneg hs2 hsz
  have m4 : s2 * f.SampleFormat.BytesPerSample ≤ e2 * f.SampleFormat.BytesPerSample :=
    mul_le_mul_of_nonneg_right hse2 hsz
  have m5 : e2 * f.SampleFormat.BytesPerSample ≤ (e - s) * f.SampleFormat.BytesPerSample :=
    mul_le_mul_of_nonneg_right hec2 hsz
  rw [sub_mul] at m5
  have hcaps := hf.2.2.2.2
  have hcount := hf.2.2.2.1
  have hle : ∀ p ∈ f.Data, (p.bytes.length : Int) ≤ (p.cap : Int) := by
    intro p _; unfold ByteSlice.cap; push_cast; omega
  -- the first slice
  have hg1 := slice_value f s e hf hs hse hec (fun p hp => by rw [hwf p hp]; exact m2)
  -- the slice of the slice
  have hgrep : AudioFrame.Representable { f with
      SampleCount := e - s
      Data := f.Data.map (fun p =>
        p.window (s * f.SampleFormat.BytesPerSample).toNat
          (e * f.SampleFormat.BytesPerSample).toNat) } := by
    refine ⟨hf.1, hf.2.1, hf.2.2.1, ⟨by have := hcount.1; show _ ≤ e - s; omega,
      by have := hcount.2; show e - s < _; omega⟩, ?_⟩
    intro q hq
    obtain ⟨p, hp, rfl⟩ := List.mem_map.mp hq
    have h1 := hwf p hp
    have h2 := hle p hp
    have h3 := hcaps p hp
    rw [window_cap p _ _ (by omega) (by omega)]
    unfold IsInt at *
    omega
  have hg2 := slice_value _ s2 e2 hgrep hs2 hse2 hec2 (by
    intro q hq
    obtain ⟨p, hp, rfl⟩ := List.mem_map.mp hq
    have h1 := hwf p hp
    rw [window_bytes_length p _ _ (by omega)]
    show e2 * f.SampleFormat.BytesPerSample ≤ _
    omega)
  -- the direct slice
  have hd := slice_value f (s + s2) (s + e2) hf (by omega) (by omega) (by omega) (by
    intro p hp
    rw [hwf p hp, add_mul]
    omega)
  have hsame : (AudioFrame.mk f.SampleRate f.SampleFormat f.ChannelLayout (s + e2 - (s + s2))
        (f.Data.map (fun p =>
          p.window ((s + s2) * f.SampleFormat.BytesPerSample).toNat
            ((s + e2) * f.SampleFormat.BytesPerSample).toNat))) =
      AudioFrame.mk f.SampleRate f.SampleFormat f.ChannelLayout (e2 - s2)
        ((f.Data.map (fun p =>
          p.window (s * f.SampleFormat.BytesPerSample).toNat
            (e * f.SampleFormat.BytesPerSample).toNat)).map (fun q =>
          q.window (s2 * f.SampleFormat.BytesPerSample).toNat
            (e2 * f.SampleFormat.BytesPerSample).toNat)) := by
    have hc : s + e2 - (s + s2) = e2 - s2 := by ring
    rw [hc, List.map_map]
    congr 1
    apply List.map_congr_left
    intro p hp
    have h1 := hwf p hp
    have h2 := hle p hp
    simp only [Function.comp]
    rw [window_window p _ _ _ _ (by omega) (by omega), add_mul, add_mul,
      Int.toNat_add m0 m3, Int.toNat_add m0 (le_trans m3 m4)]
  have hchain : f.Slice (s + s2) (s + e2) = .ok (AudioFrame.mk f.SampleRate f.SampleFormat
      f.ChannelLayout (e2 - s2)
        ((f.Data.map (fun p =>
          p.window (s * f.SampleFormat.BytesPerSample).toNat
            (e * f.SampleFormat.BytesPerSample).toNat)).map (fun q =>
          q.window (s2 * f.SampleFormat.BytesPerSample).toNat
            (e2 * f.SampleFormat.BytesPerSample).toNat))) := by
    rw [hd]; exact congrArg Except.ok hsame
  refine ⟨⟨_, _, hg1, hg2, hchain⟩, ?_, ?_⟩
  · have hcnt0 : 0 ≤ f.SampleCount := by omega
    rw [slice_value f 0 f.SampleCount hf (le_refl 0) hcnt0 (le_refl _)
      (fun p hp => by rw [hwf p hp])]
    have hmap : f.Data.map (fun p =>
          p.window (0 * f.SampleFormat.BytesPerSample).toNat
            (f.SampleCount * f.SampleFormat.BytesPerSample).toNat) = f.Data := by
      conv_rhs => rw [← List.map_id f.Data]
      apply List.map_congr_left
      intro p hp
      have h1 := hwf p hp
      have e0 : (0 * f.SampleFormat.BytesPerSample).toNat = 0 := by simp
      have e1 : (f.SampleCount * f.SampleFormat.BytesPerSample).toNat = p.bytes.length := by
        omega
      rw [e0, e1, window_self]
      rfl
    rw [hmap, sub_zero]
  · intro st r hread hdata
    obtain ⟨g, st1, hr1, hread1, hdata1⟩ :=
      frameRef_slice_ok st r s e _ hdata (by rw [hread]; exact hg1)
    obtain ⟨out, st2, hr2, hread2, _⟩ :=
      frameRef_slice_ok st1 g s2 e2 _ hdata1 (by rw [hread1]; exact hg2)
    exact ⟨g, st1, out, st2, hr1, hr2, by rw [hread2]; exact hchain⟩

/-- C18 at `Slice(2,8).Slice(1,4)` of the 10-sample frame, which is
`Slice(3,6)`: 3 samples, the bytes at offsets 6 to 11. -/
theorem slice_compose_witness :
    frame10.Representable ∧ frame10.WellFormed ∧
    (∃ g out, frame10.Slice 2 8 = .ok g ∧ g.Slice 1 4 = .ok out ∧
      frame10.Slice (2 + 1) (2 + 4) = .ok out) ∧
    (frame10.Slice 3 6).map (fun o => (o.SampleCount, o.Data.map ByteSlice.bytes)) =
      .ok (3, [[6, 7, 8, 9, 10, 11]]) ∧
    frame10.Slice 0 frame10.SampleCount = .ok frame10 := by
  obtain ⟨h1, h2, _⟩ :=
    slice_compose frame10 2 8 1 4 (by decide) (by decide) (by decide) (by decide) (by decide)
      (by decide) (by decide) (by decide)
  exact ⟨by decide, by decide, h1, by decide, h2⟩

/-! ## Splitting and rejoining -/

/-- Zipping two images of one list. -/
theorem zipWith_map_map_self {α β γ δ : Type} (g : β → γ → δ) (u : α → β) (v : α → γ) :
    ∀ l : List α, List.zipWith g (l.map u) (l.map v) = l.map (fun x => g (u x) (v x)) := by
  intro l
  induction l with
  | nil => rfl
  | cons x xs ih => simp only [List.map_cons, List.zipWith_cons_cons, ih]

/-- Splitting and rejoining on frame values: when the two slices do not share
their array of plane headers, so that each is the frame its call returned,
concatenating `Slice(0,k)` and `Slice(k,n)` of a well-formed frame gives back
its fields and the bytes of every plane. -/
theorem split_join_values (f : AudioFrame) (k : Int) (hf : f.Representable)
    (hwf : f.WellFormed) (hk0 : 0 ≤ k) (hkn : k ≤ f.SampleCount) :
    ∃ g h out, f.Slice 0 k = .ok g ∧ f.Slice k f.SampleCount = .ok h ∧
      g.Concat h = .ok out ∧
      out.SampleCount = f.SampleCount ∧ out.SampleRate = f.SampleRate ∧
      out.SampleFormat = f.SampleFormat ∧ out.ChannelLayout = f.ChannelLayout ∧
      out.Data.map ByteSlice.bytes = f.Data.map ByteSlice.bytes := by
  have hsz := (bytesPerSample_range f.SampleFormat).1
  have m0 : 0 ≤ k * f.SampleFormat.BytesPerSample := mul_nonneg hk0 hsz
  have m1 : k * f.SampleFormat.BytesPerSample ≤ f.SampleCount * f.SampleFormat.BytesPerSample :=
    mul_le_mul_of_nonneg_right hkn hsz
  have hg := slice_value f 0 k hf (le_refl 0) hk0 hkn (fun p hp => by rw [hwf p hp]; exact m1)
  have hh := slice_value f k f.SampleCount hf hk0 hkn (le_refl _)
    (fun p hp => by rw [hwf p hp])
  have hcount := hf.2.2.2.1
  refine ⟨_, _, _, hg, hh, concat_ok _ _ (by simp), ?_, rfl, rfl, rfl, ?_⟩
  · show intAdd (k - 0) (f.SampleCount - k) = f.SampleCount
    unfold intAdd
    rw [wrapInt_of_range _ (by have := hcount.1; omega) (by have := hcount.2; omega)]
    ring
  · show (List.zipWith (fun (p q : ByteSlice) => appendBytes p q.bytes) _ _).map
      ByteSlice.bytes = _
    rw [zipWith_appendBytes_bytes, zipWith_map_map_self]
    apply List.map_congr_left
    intro p hp
    have h1 := hwf p hp
    have e0 : (0 * f.SampleFormat.BytesPerSample).toNat = 0 := by simp
    have e1 : (f.SampleCount * f.SampleFormat.BytesPerSample).toNat = p.bytes.length := by
      omega
    rw [e0, e1, window_bytes_of_le p 0 _ (by omega), window_bytes_of_le p _ _ (le_refl _),
      List.take_length, List.drop_zero, List.take_append_drop]

/-! ## Reading and writing memory -/

theorem getElem?_readAt (mem : List Byte) (p n k : Nat) :
    (readAt mem p n)[k]? = if k < n then mem[p + k]? else none := by
  unfold readAt
  rw [List.getElem?_take, List.getElem?_drop]

/-- Reading depends only on the positions read. -/
theorem readAt_congr (mem mem2 : List Byte) (p n : Nat)
    (h : ∀ x, p ≤ x → x < p + n → mem2[x]? = mem[x]?) : readAt mem2 p n = readAt mem p n := by
  apply List.ext_getElem?
  intro k
  rw [getElem?_readAt, getElem?_readAt]
  split_ifs with hk
  · exact h (p + k) (by omega) (by omega)
  · rfl

theorem length_readAt (mem : List Byte) (p n : Nat) (h : p + n ≤ mem.length) :
    (readAt mem p n).length = n := by
  unfold readAt
  rw [List.length_take, List.length_drop]
  omega

theorem length_writeAt (mem : List Byte) (p : Nat) (t : List Byte)
    (h : p + t.length ≤ mem.length) : (writeAt mem p t).length = mem.length := by
  unfold writeAt
  simp only [List.length_append, List.length_take, List.length_drop]
  omega

/-- Storing leaves the other positions as they are. -/
theorem getElem?_writeAt_outside (mem : List Byte) (p : Nat) (t : List Byte) (x : Nat)
    (h : p + t.length ≤ mem.length) (hx : x < p ∨ p + t.length ≤ x) :
    (writeAt mem p t)[x]? = mem[x]? := by
  unfold writeAt
  have hlen : (mem.take p).length = p := by rw [List.length_take]; omega
  rcases hx with hx | hx
  · rw [List.append_assoc, List.getElem?_append_left (by omega),
      List.getElem?_take_of_lt hx]
  · rw [List.getElem?_append_right (by simp only [List.length_append, hlen]; omega),
      List.getElem?_drop]
    simp only [List.length_append, hlen]
    congr 1
    omega

/-- Reading back what was stored. -/
theorem readAt_writeAt (mem : List Byte) (p : Nat) (t : List Byte)
    (h : p + t.length ≤ mem.length) : readAt (writeAt mem p t) p t.length = t := by
  unfold readAt writeAt
  have hlen : (mem.take p).length = p := by rw [List.length_take]; omega
  rw [List.append_assoc, List.drop_left' hlen, List.take_left' rfl]

/-- Reading across a position: the bytes before it, then the bytes from it on. -/
theorem readAt_add (mem : List Byte) (p n m : Nat) :
    readAt mem p (n + m) = readAt mem p n ++ readAt mem (p + n) m := by
  unfold readAt
  rw [List.take_add, List.drop_drop]

/-- What `append` does, for a header that is valid in memory: memory does not
shrink; the new header is valid, has the two lengths added and exposes the
old bytes followed by the new ones; and only positions that an in-place
append stores into change. -/
theorem appendHdr_spec (grow : Nat → Nat → Nat) (mem : List Byte) (s : SliceHdr)
    (t : List Byte) (hv : s.ValidIn mem) :
    mem.length ≤ (appendHdr grow mem s t).2.length ∧
    (appendHdr grow mem s t).1.len = s.len + t.length ∧
    (appendHdr grow mem s t).1.ValidIn (appendHdr grow mem s t).2 ∧
    (appendHdr grow mem s t).1.bytes (appendHdr grow mem s t).2 = s.bytes mem ++ t ∧
    (∀ x, x < mem.length →
      ¬(s.len + t.length ≤ s.cap ∧ s.ptr + s.len ≤ x ∧ x < s.ptr + s.len + t.length) →
      (appendHdr grow mem s t).2[x]? = mem[x]?) ∧
    ((s.len + t.length ≤ s.cap ∧ (appendHdr grow mem s t).1.ptr = s.ptr) ∨
      (¬ s.len + t.length ≤ s.cap ∧ mem.length ≤ (appendHdr grow mem s t).1.ptr)) := by
  obtain ⟨hv1, hv2⟩ := hv
  by_cases hfit : s.len + t.length ≤ s.cap
  · have e : appendHdr grow mem s t =
        ({ s with len := s.len + t.length }, writeAt mem (s.ptr + s.len) t) := by
      unfold appendHdr; rw [if_pos hfit]
    rw [e]
    have hw : s.ptr + s.len + t.length ≤ mem.length := by omega
    have hlen := length_writeAt mem (s.ptr + s.len) t hw
    refine ⟨?_, rfl, ⟨hfit, ?_⟩, ?_, ?_, Or.inl ⟨hfit, rfl⟩⟩
    · show mem.length ≤ (writeAt mem (s.ptr + s.len) t).length
      omega
    · show s.ptr + s.cap ≤ (writeAt mem (s.ptr + s.len) t).length
      omega
    · show readAt (writeAt mem (s.ptr + s.len) t) s.ptr (s.len + t.length) =
        readAt mem s.ptr s.len ++ t
      rw [readAt_add, readAt_writeAt mem _ t hw]
      congr 1
      apply readAt_congr
      intro x _ hx2
      exact getElem?_writeAt_outside mem _ t x hw (Or.inl hx2)
    · intro x _ hx
      show (writeAt mem (s.ptr + s.len) t)[x]? = mem[x]?
      apply getElem?_writeAt_outside mem _ t x hw
      omega
  · have e : appendHdr grow mem s t =
        ({ ptr := mem.length, len := s.len + t.length,
           cap := max (grow s.cap (s.len + t.length)) (s.len + t.length) },
          mem ++ (readAt mem s.ptr s.len ++ t ++
            List.replicate (max (grow s.cap (s.len + t.length)) (s.len + t.length) -
              (s.len + t.length)) 0)) := by
      unfold appendHdr; rw [if_neg hfit]
    rw [e]
    have hsl : (readAt mem s.ptr s.len).length = s.len := length_readAt mem _ _ (by omega)
    have hmax : s.len + t.length ≤ max (grow s.cap (s.len + t.length)) (s.len + t.length) :=
      le_max_right _ _
    refine ⟨?_, rfl, ⟨hmax, ?_⟩, ?_, ?_, Or.inr ⟨hfit, le_refl _⟩⟩
    · simp only [List.length_append]; omega
    · show mem.length + max (grow s.cap (s.len + t.length)) (s.len + t.length) ≤ _
      simp only [List.length_append, List.length_replicate, hsl]
      omega
    · show readAt _ mem.length (s.len + t.length) = readAt mem s.ptr s.len ++ t
      have hl : (readAt mem s.ptr s.len ++ t).length = s.len + t.length := by
        rw [List.length_append, hsl]
      show List.take _ (List.drop mem.length (mem ++ _)) = _
      rw [List.drop_left, List.take_left' hl]
    · intro x hx _
      exact List.getElem?_append_left hx

/-! ## The concatenation loop in memory -/

theorem writeEnd_of_fit (s t : SliceHdr) (h : s.len + t.len ≤ s.cap) :
    s.writeEnd t = s.ptr + s.len + t.len := by
  unfold SliceHdr.writeEnd; rw [if_pos h]

theorem writeEnd_of_not_fit (s t : SliceHdr) (h : ¬ s.len + t.len ≤ s.cap) :
    s.writeEnd t = s.ptr + s.len := by
  unfold SliceHdr.writeEnd; rw [if_neg h]

theorem validIn_mono (mem mem2 : List Byte) (h : SliceHdr) (hl : mem.length ≤ mem2.length)
    (hv : h.ValidIn mem) : h.ValidIn mem2 :=
  ⟨hv.1, le_trans hv.2 hl⟩

/-- The separation of the planes behind the first one. -/
theorem separate_tail (s t : SliceHdr) (ss ts : List SliceHdr)
    (h : Separate (s :: ss) (t :: ts)) : Separate ss ts := by
  intro i hi j hj hij
  have := h (i + 1) (by simp only [List.length_cons]; omega) (j + 1)
    (by simp only [List.length_cons]; omega) (by omega)
  simp only [List.getD_cons_succ] at this
  exact ⟨this.1, fun hlt => this.2 (by omega)⟩

/-- When `in` has a plane for every plane of `out`, and the headers are valid
in memory, the loop returns: as many headers as `out` has, valid in the new
memory, with the lengths added. -/
theorem concatLoopMem_ok (grow : Nat → Nat → Nat) :
    ∀ (ss ts : List SliceHdr) (mem : List Byte), ss.length ≤ ts.length →
      (∀ s ∈ ss, s.ValidIn mem) → (∀ t ∈ ts, t.ptr + t.len ≤ mem.length) →
      ∃ rs mem2, concatLoopMem grow ss ts mem = .ok (rs, mem2) ∧ rs.length = ss.length ∧
        mem.length ≤ mem2.length ∧ (∀ r ∈ rs, r.ValidIn mem2) ∧
        rs.map SliceHdr.len = List.zipWith (fun s t => s.len + t.len) ss ts := by
  intro ss
  induction ss with
  | nil =>
    intro ts mem _ _ _
    exact ⟨[], mem, by simp [concatLoopMem], rfl, le_refl _, by simp, by simp⟩
  | cons s ss ih =>
    intro ts mem hlen hvs hvt
    cases ts with
    | nil => simp at hlen
    | cons t ts =>
      have hs := hvs s (List.mem_cons_self s ss)
      have ht := hvt t (List.mem_cons_self t ts)
      obtain ⟨h1, h2, h3, _, _, _⟩ := appendHdr_spec grow mem s (t.bytes mem) hs
      have htl : (t.bytes mem).length = t.len := length_readAt mem _ _ ht
      obtain ⟨rs, mem2, hloop, hrl, hml, hrv, hlens⟩ :=
        ih ts (appendHdr grow mem s (t.bytes mem)).2 (by simpa using hlen)
          (fun x hx => validIn_mono _ _ x h1 (hvs x (List.mem_cons_of_mem s hx)))
          (fun x hx => le_trans (hvt x (List.mem_cons_of_mem t hx)) h1)
      refine ⟨(appendHdr grow mem s (t.bytes mem)).1 :: rs, mem2, ?_, ?_, le_trans h1 hml, ?_, ?_⟩
      · simp only [concatLoopMem, hloop]
      · simp only [List.length_cons, hrl]
      · intro r hr
        rcases List.mem_cons.mp hr with rfl | hr
        · exact validIn_mono _ _ _ hml h3
        · exact hrv r hr
      · simp only [List.map_cons, List.zipWith_cons_cons, hlens, h2, htl]

/-- When `in` has fewer planes than `out`, the loop panics on the index. -/
theorem concatLoopMem_error (grow : Nat → Nat → Nat) :
    ∀ (ss ts : List SliceHdr) (mem : List Byte), ts.length < ss.length →
      concatLoopMem grow ss ts mem = .error Panic.indexOutOfRange := by
  intro ss
  induction ss with
  | nil => intro ts mem h; simp at h
  | cons s ss ih =>
    intro ts mem h
    cases ts with
    | nil => rfl
    | cons t ts =>
      have := ih ts (appendHdr grow mem s (t.bytes mem)).2 (by simpa using h)
      simp only [concatLoopMem, this]

/-- The planes of `in` behind those of `out` play no part in the loop. -/
theorem concatLoopMem_take (grow : Nat → Nat → Nat) :
    ∀ (ss ts : List SliceHdr) (mem : List Byte),
      concatLoopMem grow ss (ts.take ss.length) mem = concatLoopMem grow ss ts mem := by
  intro ss
  induction ss with
  | nil => intro ts mem; simp [concatLoopMem]
  | cons s ss ih =>
    intro ts mem
    cases ts with
    | nil => rfl
    | cons t ts =>
      simp only [List.length_cons, List.take_succ_cons, concatLoopMem, ih]

/-- A position inside `[c, d)` is not inside `[a, b)` when the two have no
position in common. -/
theorem not_mem_of_noOverlap (a b c d x : Nat) (h : NoOverlap a b c d) (h1 : c ≤ x)
    (h2 : x < d) : ¬(a ≤ x ∧ x < b) := by
  unfold NoOverlap at h
  omega

theorem writeEnd_ge (s t : SliceHdr) : s.ptr + s.len ≤ s.writeEnd t := by
  unfold SliceHdr.writeEnd; split_ifs <;> omega

theorem writeEnd_le (s t : SliceHdr) (mem : List Byte) (h : s.ValidIn mem) :
    s.writeEnd t ≤ mem.length := by
  obtain ⟨h1, h2⟩ := h
  unfold SliceHdr.writeEnd; split_ifs <;> omega

/-- Under separation the loop returns, for every plane, the bytes `out` had
followed by the bytes `in` had, and changes memory only where an in-place
append stores. -/
theorem concatLoopMem_bytes (grow : Nat → Nat → Nat) :
    ∀ (ss ts : List SliceHdr) (mem : List Byte) (rs : List SliceHdr) (mem2 : List Byte),
      concatLoopMem grow ss ts mem = .ok (rs, mem2) →
      (∀ s ∈ ss, s.ValidIn mem) → (∀ t ∈ ts, t.ptr + t.len ≤ mem.length) →
      Separate ss ts →
      (∀ i, i < ss.length →
        (rs.getD i ⟨0, 0, 0⟩).bytes mem2 =
          (ss.getD i ⟨0, 0, 0⟩).bytes mem ++ (ts.getD i ⟨0, 0, 0⟩).bytes mem) ∧
      (∀ x, x < mem.length →
        (∀ i, i < ss.length → ¬((ss.getD i ⟨0, 0, 0⟩).ptr + (ss.getD i ⟨0, 0, 0⟩).len ≤ x ∧
          x < (ss.getD i ⟨0, 0, 0⟩).writeEnd (ts.getD i ⟨0, 0, 0⟩))) →
        mem2[x]? = mem[x]?) := by
  intro ss
  induction ss with
  | nil =>
    intro ts mem rs mem2 h _ _ _
    simp only [concatLoopMem] at h
    injection h with h
    injection h with h1 h2
    subst h2
    exact ⟨fun i hi => by simp at hi, fun x _ _ => rfl⟩
  | cons s ss ih =>
    intro ts mem rs mem2 h hvs hvt hsep
    cases ts with
    | nil => simp [concatLoopMem] at h
    | cons t ts =>
      have hs := hvs s (List.mem_cons_self s ss)
      have ht := hvt t (List.mem_cons_self t ts)
      obtain ⟨h1, h2, h3, h4, h5, h6⟩ := appendHdr_spec grow mem s (t.bytes mem) hs
      have htl : (t.bytes mem).length = t.len := length_readAt mem _ _ ht
      rw [htl] at h2 h5 h6
      simp only [concatLoopMem] at h
      split at h
      · cases h
      · rename_i rs1 mem3 hloop
        injection h with h
        injection h with hr hm
        subst hr hm
        have hvs1 : ∀ x ∈ ss, x.ValidIn (appendHdr grow mem s (t.bytes mem)).2 :=
          fun x hx => validIn_mono _ _ x h1 (hvs x (List.mem_cons_of_mem s hx))
        have hvt1 : ∀ x ∈ ts, x.ptr + x.len ≤ (appendHdr grow mem s (t.bytes mem)).2.length :=
          fun x hx => le_trans (hvt x (List.mem_cons_of_mem t hx)) h1
        obtain ⟨ihb, ihf⟩ := ih ts _ rs1 mem3 hloop hvs1 hvt1 (separate_tail s t ss ts hsep)
        -- what the first append stores lies outside the later planes
        have hfirst : ∀ i, i < ss.length → ∀ x,
            ((ss.getD i ⟨0, 0, 0⟩).ptr ≤ x ∧
              x < (ss.getD i ⟨0, 0, 0⟩).writeEnd (ts.getD i ⟨0, 0, 0⟩)) ∨
            ((ts.getD i ⟨0, 0, 0⟩).ptr ≤ x ∧
              x < (ts.getD i ⟨0, 0, 0⟩).ptr + (ts.getD i ⟨0, 0, 0⟩).len) →
            ¬(s.ptr + s.len ≤ x ∧ x < s.writeEnd t) := by
          intro i hi x hx
          have := hsep 0 (by simp) (i + 1) (by simp only [List.length_cons]; omega) (by omega)
          simp only [List.getD_cons_zero, List.getD_cons_succ] at this
          rcases hx with hx | hx
          · exact not_mem_of_noOverlap _ _ _ _ x this.1 hx.1 hx.2
          · exact not_mem_of_noOverlap _ _ _ _ x (this.2 (by omega)) hx.1 hx.2
        -- what the later appends store lies outside the first plane
        have hlater : ∀ i, i < ss.length → ∀ x, s.ptr ≤ x → x < s.writeEnd t →
            ¬((ss.getD i ⟨0, 0, 0⟩).ptr + (ss.getD i ⟨0, 0, 0⟩).len ≤ x ∧
              x < (ss.getD i ⟨0, 0, 0⟩).writeEnd (ts.getD i ⟨0, 0, 0⟩)) := by
          intro i hi x hx1 hx2
          have := hsep (i + 1) (by simp only [List.length_cons]; omega) 0 (by simp) (by omega)
          simp only [List.getD_cons_zero, List.getD_cons_succ] at this
          exact not_mem_of_noOverlap _ _ _ _ x this.1 hx1 hx2
        have hmemss : ∀ i, i < ss.length → ss.getD i ⟨0, 0, 0⟩ ∈ ss := by
          intro i hi
          rw [List.getD_eq_getElem _ _ hi]
          exact List.getElem_mem hi
        have hstep : ∀ x, x < mem.length → ¬(s.ptr + s.len ≤ x ∧ x < s.writeEnd t) →
            (appendHdr grow mem s (t.bytes mem)).2[x]? = mem[x]? := by
          intro x hx hnw
          apply h5 x hx
          rintro ⟨hfit, hlo, hhi⟩
          apply hnw
          rw [writeEnd_of_fit s t hfit]
          exact ⟨hlo, hhi⟩
        refine ⟨?_, ?_⟩
        · intro i hi
          cases i with
          | zero =>
            simp only [List.getD_cons_zero]
            rw [← h4]
            apply readAt_congr
            intro x hx1 hx2
            have hxl : x < (appendHdr grow mem s (t.bytes mem)).2.length := by
              obtain ⟨_, hv2⟩ := h3
              omega
            apply ihf x hxl
            intro j hj
            rcases h6 with ⟨hfit, hptr⟩ | ⟨_, hfresh⟩
            · apply hlater j hj x (by omega)
              rw [writeEnd_of_fit s t hfit]
              omega
            · have := writeEnd_le (ss.getD j ⟨0, 0, 0⟩) (ts.getD j ⟨0, 0, 0⟩) mem
                (hvs _ (List.mem_cons_of_mem s (hmemss j hj)))
              omega
          | succ i =>
            have hi2 : i < ss.length := by simp only [List.length_cons] at hi; omega
            simp only [List.getD_cons_succ]
            rw [ihb i hi2]
            have hv := hvs _ (List.mem_cons_of_mem s (hmemss i hi2))
            have hge := writeEnd_ge (ss.getD i ⟨0, 0, 0⟩) (ts.getD i ⟨0, 0, 0⟩)
            congr 1
            · apply readAt_congr
              intro x hx1 hx2
              apply hstep x (by obtain ⟨_, hv2⟩ := hv; omega)
              exact hfirst i hi2 x (Or.inl ⟨hx1, by omega⟩)
            · apply readAt_congr
              intro x hx1 hx2
              have hlt : i < ts.length := by
                by_contra hge2
                have : (ts.getD i ⟨0, 0, 0⟩) = ⟨0, 0, 0⟩ := by
                  rw [List.getD_eq_getElem?_getD, List.getElem?_eq_none (by omega)]
                  rfl
                rw [this] at hx1 hx2
                simp at hx2
              have hvt2 : (ts.getD i ⟨0, 0, 0⟩).ptr + (ts.getD i ⟨0, 0, 0⟩).len ≤ mem.length := by
                apply hvt _ (List.mem_cons_of_mem t _)
                rw [List.getD_eq_getElem _ _ hlt]
                exact List.getElem_mem hlt
              apply hstep x (by omega)
              exact hfirst i hi2 x (Or.inr ⟨hx1, hx2⟩)
        · intro x hx hall
          have e1 : mem3[x]? = (appendHdr grow mem s (t.bytes mem)).2[x]? := by
            apply ihf x (lt_of_lt_of_le hx h1)
            intro j hj
            have := hall (j + 1) (by simp only [List.length_cons]; omega)
            simpa only [List.getD_cons_succ] using this
          rw [e1]
          apply hstep x hx
          have := hall 0 (by simp)
          simpa only [List.getD_cons_zero] using this

/-! ## Concat on frames in memory -/

/-- Reading back the array of plane headers a call stored. -/
theorem getD_set_planes (hdrs : List (List SliceHdr)) (addr : Nat) (rs : List SliceHdr)
    (h : rs.length = (hdrs.getD addr []).length) : (hdrs.set addr rs).getD addr [] = rs := by
  by_cases ha : addr < hdrs.length
  · simp [List.getD_eq_getElem?_getD, ha]
  · have h0 : hdrs.getD addr [] = [] := by
      rw [List.getD_eq_getElem?_getD, List.getElem?_eq_none (by omega)]; rfl
    rw [h0] at h
    have hnil : rs = [] := List.length_eq_zero.mp h
    subst hnil
    rw [List.getD_eq_getElem?_getD, List.getElem?_eq_none (by simp; omega)]
    rfl

/-- From the bytes of every plane to the list of the planes' bytes. -/
theorem bytes_eq_zipWith (mem mem2 : List Byte) :
    ∀ (ss ts rs : List SliceHdr), rs.length = ss.length → ss.length ≤ ts.length →
      (∀ i, i < ss.length →
        (rs.getD i ⟨0, 0, 0⟩).bytes mem2 =
          (ss.getD i ⟨0, 0, 0⟩).bytes mem ++ (ts.getD i ⟨0, 0, 0⟩).bytes mem) →
      (rs.map (SliceHdr.view mem2)).map ByteSlice.bytes =
        List.zipWith (fun p q => p.bytes ++ q.bytes) (ss.map (SliceHdr.view mem))
          (ts.map (SliceHdr.view mem)) := by
  intro ss
  induction ss with
  | nil =>
    intro ts rs hr _ _
    have : rs = [] := List.length_eq_zero.mp hr
    subst this
    simp
  | cons s ss ih =>
    intro ts rs hr hl h
    cases ts with
    | nil => simp at hl
    | cons t ts =>
      cases rs with
      | nil => simp at hr
      | cons r rs =>
        have h0 := h 0 (by simp)
        simp only [List.getD_cons_zero] at h0
        have hrest := ih ts rs (by simpa using hr) (by simpa using hl) (fun i hi => by
          have := h (i + 1) (by simp only [List.length_cons]; omega)
          simpa only [List.getD_cons_succ] using this)
        simp only [List.map_cons, List.zipWith_cons_cons, hrest]
        congr 1

/-- The lengths of the planes of a frame in memory are those of its headers,
when the headers are valid. -/
theorem view_lengths (mem : List Byte) :
    ∀ hs : List SliceHdr, (∀ h ∈ hs, h.ptr + h.len ≤ mem.length) →
      (hs.map (SliceHdr.view mem)).map (fun p => p.bytes.length) = hs.map SliceHdr.len := by
  intro hs hv
  rw [List.map_map]
  apply List.map_congr_left
  intro h hh
  exact length_readAt mem _ _ (hv h hh)

/-- What `Concat` returns on frames in memory when `in` has a plane for every
plane of the receiver: the struct of the receiver with the sample counts
added, the appended plane headers stored into its array, and the memory the
loop leaves. -/
theorem concatMem_ok (grow : Nat → Nat → Nat) (hp : Heap) (a b : FrameRef)
    (hlen : (a.planes hp).length ≤ (b.planes hp).length)
    (hva : ∀ s ∈ a.planes hp, s.ValidIn hp.mem) (hvb : ∀ t ∈ b.planes hp, t.ValidIn hp.mem) :
    ∃ rs mem2, concatLoopMem grow (a.planes hp) (b.planes hp) hp.mem = .ok (rs, mem2) ∧
      a.ConcatMem grow hp b =
        .ok ({ a with SampleCount := intAdd a.SampleCount b.SampleCount },
          { mem := mem2, hdrs := hp.hdrs.set a.Data rs }) ∧
      FrameRef.planes { mem := mem2, hdrs := hp.hdrs.set a.Data rs }
        { a with SampleCount := intAdd a.SampleCount b.SampleCount } = rs ∧
      rs.length = (a.planes hp).length ∧ (∀ r ∈ rs, r.ValidIn mem2) ∧
      rs.map SliceHdr.len =
        List.zipWith (fun s t => s.len + t.len) (a.planes hp) (b.planes hp) := by
  obtain ⟨rs, mem2, hloop, hrl, _, hrv, hlens⟩ :=
    concatLoopMem_ok grow (a.planes hp) (b.planes hp) hp.mem hlen hva
      (fun t ht => by have := hvb t ht; unfold SliceHdr.ValidIn at this; omega)
  refine ⟨rs, mem2, hloop, ?_, ?_, hrl, hrv, hlens⟩
  · simp only [FrameRef.ConcatMem, hloop]
  · exact getD_set_planes hp.hdrs a.Data rs hrl

/-! ## What Concat returns in memory -/

/-- The view of the frame `Concat` returns, in terms of the headers the loop
returned. -/
theorem view_concat_result (a : FrameRef) (n : Int) (hdrs : List (List SliceHdr))
    (rs : List SliceHdr) (mem2 : List Byte)
    (h : FrameRef.planes { mem := mem2, hdrs := hdrs } { a with SampleCount := n } = rs) :
    FrameRef.view { mem := mem2, hdrs := hdrs } { a with SampleCount := n } =
      { SampleRate := a.SampleRate, SampleFormat := a.SampleFormat,
        ChannelLayout := a.ChannelLayout, SampleCount := n,
        Data := rs.map (SliceHdr.view mem2) } := by
  unfold FrameRef.view
  rw [h]

/-- The lengths of the planes of two frames in memory, added plane by plane,
are the lengths of their headers added. -/
theorem zipWith_view_lengths (mem : List Byte) :
    ∀ ss ts : List SliceHdr, (∀ s ∈ ss, s.ptr + s.len ≤ mem.length) →
      (∀ t ∈ ts, t.ptr + t.len ≤ mem.length) →
      List.zipWith (fun p q => p.bytes.length + q.bytes.length) (ss.map (SliceHdr.view mem))
          (ts.map (SliceHdr.view mem)) =
        List.zipWith (fun s t => s.len + t.len) ss ts := by
  intro ss
  induction ss with
  | nil => intro ts _ _; simp
  | cons s ss ih =>
    intro ts hs ht
    cases ts with
    | nil => simp
    | cons t ts =>
      have e1 : (SliceHdr.view mem s).bytes.length = s.len :=
        length_readAt mem _ _ (hs s (List.mem_cons_self s ss))
      have e2 : (SliceHdr.view mem t).bytes.length = t.len :=
        length_readAt mem _ _ (ht t (List.mem_cons_self t ts))
      simp only [List.map_cons, List.zipWith_cons_cons, e1, e2,
        ih ts (fun x hx => hs x (List.mem_cons_of_mem s hx))
          (fun x hx => ht x (List.mem_cons_of_mem t hx))]

/-- What `Concat` returns whenever `in` has a plane for every plane of the
receiver, whatever storage the planes share: the fields of the receiver with
the sample counts added, as many planes, of the lengths added; and, under
separation, the bytes of the receiver's planes followed by those of `in`. -/
theorem concatMem_result (grow : Nat → Nat → Nat) (hp : Heap) (a b : FrameRef)
    (hlen : (a.planes hp).length ≤ (b.planes hp).length)
    (hva : ∀ s ∈ a.planes hp, s.ValidIn hp.mem) (hvb : ∀ t ∈ b.planes hp, t.ValidIn hp.mem) :
    ∃ out hp2, a.ConcatMem grow hp b = .ok (out, hp2) ∧
      (out.view hp2).SampleCount = intAdd (a.view hp).SampleCount (b.view hp).SampleCount ∧
      (out.view hp2).SampleRate = (a.view hp).SampleRate ∧
      (out.view hp2).SampleFormat = (a.view hp).SampleFormat ∧
      (out.view hp2).ChannelLayout = (a.view hp).ChannelLayout ∧
      (out.view hp2).Data.length = (a.view hp).Data.length ∧
      (out.view hp2).Data.map (fun p => p.bytes.length) =
        List.zipWith (fun p q => p.bytes.length + q.bytes.length) (a.view hp).Data
          (b.view hp).Data ∧
      (Separate (a.planes hp) (b.planes hp) →
        (out.view hp2).Data.map ByteSlice.bytes =
          List.zipWith (fun p q => p.bytes ++ q.bytes) (a.view hp).Data (b.view hp).Data) := by
  have hve : ∀ s ∈ a.planes hp, s.ptr + s.len ≤ hp.mem.length :=
    fun s hs => by have := hva s hs; unfold SliceHdr.ValidIn at this; omega
  have hvbe : ∀ t ∈ b.planes hp, t.ptr + t.len ≤ hp.mem.length :=
    fun t ht => by have := hvb t ht; unfold SliceHdr.ValidIn at this; omega
  obtain ⟨rs, mem2, hloop, hcall, hout, hrl, hrv, hlens⟩ := concatMem_ok grow hp a b hlen hva hvb
  have hview := view_concat_result a (intAdd a.SampleCount b.SampleCount) _ rs mem2 hout
  refine ⟨_, _, hcall, ?_, ?_, ?_, ?_, ?_, ?_, ?_⟩
  · rw [hview]; rfl
  · rw [hview]; rfl
  · rw [hview]; rfl
  · rw [hview]; rfl
  · rw [hview]
    simp [FrameRef.view, hrl]
  · rw [hview]
    show List.map _ (rs.map (SliceHdr.view mem2)) = _
    rw [view_lengths mem2 rs (fun r hr => by
      have := hrv r hr; unfold SliceHdr.ValidIn at this; omega), hlens]
    exact (zipWith_view_lengths hp.mem _ _ hve hvbe).symm
  · intro hsep
    rw [hview]
    obtain ⟨hbytes, _⟩ := concatLoopMem_bytes grow _ _ _ rs mem2 hloop hva hvbe hsep
    exact bytes_eq_zipWith hp.mem mem2 _ _ rs hrl hlen hbytes

/-- C2 (as the code behaves): `append` stores in place when the capacity
suffices. For two well-formed planar frames of one format with two planes
each, where the planes of the receiver are `buf[0:4]` and `buf[4:8]` of one
16-byte buffer, the append to plane 0 stores the bytes 104..107 of the
argument over plane 1, and `Concat` returns as plane 1 the bytes 104..107
followed by 200..203 instead of 4..7 followed by 200..203. -/
theorem concat_shared_buffer_counterexample :
    (refSharedA.view heapShared).HasSameFormat (refSharedB.view heapShared) = true ∧
    (refSharedA.view heapShared).Data.length = (refSharedB.view heapShared).Data.length ∧
    (refSharedA.view heapShared).WellFormed ∧ (refSharedB.view heapShared).WellFormed ∧
    (refSharedA.view heapShared).Data.map ByteSlice.bytes = [[0, 1, 2, 3], [4, 5, 6, 7]] ∧
    (refSharedB.view heapShared).Data.map ByteSlice.bytes =
      [[104, 105, 106, 107], [200, 201, 202, 203]] ∧
    (refSharedA.ConcatMem growDouble heapShared refSharedB).map
        (fun r => ((r.1.view r.2).SampleCount, (r.1.view r.2).Data.map ByteSlice.bytes)) =
      .ok (4, [[0, 1, 2, 3, 104, 105, 106, 107], [104, 105, 106, 107, 200, 201, 202, 203]]) := by
  decide

/-- C2 (amended): for frames `a`, `b` in memory, of the same format and number
of planes, with valid plane headers, `Concat` returns a frame whose
`SampleCount` is `a.SampleCount + b.SampleCount` (the addition of Go `int`,
which is the sum whenever the sum is an `int`), with the sample rate, format
and layout of `a`, as many planes as `a`, and plane `i` as long as plane `i`
of `a` and plane `i` of `b` together. When no in-place append of the loop
stores into bytes of another plane (`Separate`), plane `i` is the bytes of
plane `i` of `a` followed by those of plane `i` of `b`; so when moreover every
plane of `a` has exactly `a.SampleCount * BytesPerSample` bytes, the first
`a.SampleCount` samples of every plane are the bytes of `a` and the rest are
the bytes of `b`. This holds for every allocation policy `grow`. -/
theorem concat_separate (grow : Nat → Nat → Nat) (hp : Heap) (a b : FrameRef)
    (_hfmt : (a.view hp).HasSameFormat (b.view hp) = true)
    (hplanes : (a.view hp).Data.length = (b.view hp).Data.length)
    (hva : ∀ s ∈ a.planes hp, s.ValidIn hp.mem) (hvb : ∀ t ∈ b.planes hp, t.ValidIn hp.mem) :
    ∃ out hp2, a.ConcatMem grow hp b = .ok (out, hp2) ∧
      (out.view hp2).SampleCount = intAdd (a.view hp).SampleCount (b.view hp).SampleCount ∧
      (IsInt ((a.view hp).SampleCount + (b.view hp).SampleCount) →
        (out.view hp2).SampleCount = (a.view hp).SampleCount + (b.view hp).SampleCount) ∧
      (out.view hp2).SampleRate = (a.view hp).SampleRate ∧
      (out.view hp2).SampleFormat = (a.view hp).SampleFormat ∧
      (out.view hp2).ChannelLayout = (a.view hp).ChannelLayout ∧
      (out.view hp2).Data.length = (a.view hp).Data.length ∧
      (out.view hp2).Data.map (fun p => p.bytes.length) =
        List.zipWith (fun p q => p.bytes.length + q.bytes.length) (a.view hp).Data
          (b.view hp).Data ∧
      (Separate (a.planes hp) (b.planes hp) →
        (out.view hp2).Data.map ByteSlice.bytes =
          List.zipWith (fun p q => p.bytes ++ q.bytes) (a.view hp).Data (b.view hp).Data ∧
        ((a.view hp).WellFormed →
          (out.view hp2).Data.map (fun r =>
              r.bytes.take ((a.view hp).SampleCount *
                (a.view hp).SampleFormat.BytesPerSample).toNat) =
            (a.view hp).Data.map ByteSlice.bytes ∧
          (out.view hp2).Data.map (fun r =>
              r.bytes.drop ((a.view hp).SampleCount *
                (a.view hp).SampleFormat.BytesPerSample).toNat) =
            (b.view hp).Data.map ByteSlice.bytes)) := by
  have hpl : (a.planes hp).length = (b.planes hp).length := by
    simpa [FrameRef.view] using hplanes
  obtain ⟨out, hp2, h1, h2, h3, h4, h5, h6, h7, h8⟩ :=
    concatMem_result grow hp a b (le_of_eq hpl) hva hvb
  refine ⟨out, hp2, h1, h2, ?_, h3, h4, h5, h6, h7, fun hsep => ⟨h8 hsep, fun hwf => ?_⟩⟩
  · intro hint
    rw [h2]
    exact wrapInt_of_range _ hint.1 hint.2
  · have hn : ∀ p ∈ (a.view hp).Data, p.bytes.length =
        ((a.view hp).SampleCount * (a.view hp).SampleFormat.BytesPerSample).toNat := by
      intro p hp2
      have := hwf p hp2
      omega
    obtain ⟨e1, e2⟩ := zipWith_append_split _ (a.view hp).Data (b.view hp).Data hplanes hn
    constructor
    · have key : ∀ (n : Nat) (l : List ByteSlice),
          l.map (fun r => r.bytes.take n) = (l.map ByteSlice.bytes).map (fun r => r.take n) := by
        intro n l; rw [List.map_map]; rfl
      rw [key, h8 hsep]
      exact e1
    · have key : ∀ (n : Nat) (l : List ByteSlice),
          l.map (fun r => r.bytes.drop n) = (l.map ByteSlice.bytes).map (fun r => r.drop n) := by
        intro n l; rw [List.map_map]; rfl
      rw [key, h8 hsep]
      exact e2

/-- C2 (amended) at the 10-sample and the 5-sample frame, which give 15
samples, the 20 bytes of the first followed by the 10 bytes of the second;
and at two planar frames whose planes lie apart in one buffer, where every
append is in place and plane `i` of the result is plane `i` of the first
frame followed by plane `i` of the second. -/
theorem concat_separate_witness :
    (ref10.view heap15 = frame10 ∧ ref5.view heap15 = frame5 ∧
      ∃ out hp2, ref10.ConcatMem growDouble heap15 ref5 = .ok (out, hp2) ∧
        (out.view hp2).SampleCount = 15 ∧
        (out.view hp2).Data.map ByteSlice.bytes =
          [[0, 1, 2, 3, 4, 5, 6, 7, 8, 9, 10, 11, 12, 13, 14, 15, 16, 17, 18, 19,
            100, 101, 102, 103, 104, 105, 106, 107, 108, 109]] ∧
        (out.view hp2).Data.map (fun r => r.bytes.take 20) = frame10.Data.map ByteSlice.bytes ∧
        (out.view hp2).Data.map (fun r => r.bytes.drop 20) = frame5.Data.map ByteSlice.bytes) ∧
    ((refSharedA.view heapSeparate).HasSameFormat (refSharedB.view heapSeparate) = true ∧
      Separate (refSharedA.planes heapSeparate) (refSharedB.planes heapSeparate) ∧
      (refSharedA.view heapSeparate).Data.map ByteSlice.bytes = [[0, 1, 2, 3], [8, 9, 10, 11]] ∧
      ∃ out hp2, refSharedA.ConcatMem growDouble heapSeparate refSharedB = .ok (out, hp2) ∧
        (out.view hp2).SampleCount = 4 ∧
        (out.view hp2).Data.map ByteSlice.bytes =
          [[0, 1, 2, 3, 104, 105, 106, 107], [8, 9, 10, 11, 200, 201, 202, 203]]) := by
  constructor
  · obtain ⟨out, hp2, h1, h2, _, _, _, _, _, _, h9⟩ :=
      concat_separate growDouble heap15 ref10 ref5 (by decide) (by decide)
        (by decide) (by decide)
    obtain ⟨h10, h11⟩ := h9 (by decide)
    obtain ⟨h12, h13⟩ := h11 (by decide)
    exact ⟨by decide, by decide, out, hp2, h1, by rw [h2]; decide, by rw [h10]; decide,
      h12, h13⟩
  · obtain ⟨out, hp2, h1, h2, _, _, _, _, _, _, h9⟩ :=
      concat_separate growDouble heapSeparate refSharedA refSharedB (by decide) (by decide)
        (by decide) (by decide)
    exact ⟨by decide, by decide, by decide, out, hp2, h1, by rw [h2]; decide,
      by rw [(h9 (by decide)).1]; decide⟩

/-- C3 (as the code behaves): concatenating a frame of format U8P to a frame
of format S16P, which do not have the same format, returns a frame: 4 samples
of format S16P whose planes are those of the first frame followed by those of
the second. -/
theorem concat_format_counterexample :
    (refSharedA.view heapSeparate).SampleFormat ≠
      (FrameRef.view heapSeparate { refSharedB with SampleFormat := U8P }).SampleFormat ∧
    (refSharedA.view heapSeparate).HasSameFormat
      (FrameRef.view heapSeparate { refSharedB with SampleFormat := U8P }) = false ∧
    (refSharedA.ConcatMem growDouble heapSeparate { refSharedB with SampleFormat := U8P }).map
        (fun r => ((r.1.view r.2).SampleCount, (r.1.view r.2).SampleFormat,
          (r.1.view r.2).Data.map ByteSlice.bytes)) =
      .ok (4, S16P, [[0, 1, 2, 3, 104, 105, 106, 107], [8, 9, 10, 11, 200, 201, 202, 203]]) := by
  decide

/-- C3 (amended): `Concat` makes no format check and has no format-mismatch
error: the sample rate, format and layout of `b` have no influence on what
`a.Concat(b)` does. Whether or not the two frames have the same format, the
call fails, with an index-out-of-range panic, when `b` has fewer planes than
`a`; and when `b` has at least as many planes as `a` (plane headers valid in
memory) it returns a frame with the sample counts added, the rate, format and
layout of `a`, as many planes as `a`, plane `i` of the length of plane `i` of
`a` plus that of plane `i` of `b`, and, when no in-place append stores into
another plane, with the bytes of plane `i` of `a` followed by those of plane
`i` of `b`. -/
theorem concat_ignores_format (grow : Nat → Nat → Nat) (hp : Heap) (a b : FrameRef) :
    (∀ (r : Int) (v : SampleFormat) (l : ChannelLayout),
      a.ConcatMem grow hp { b with SampleRate := r, SampleFormat := v, ChannelLayout := l } =
        a.ConcatMem grow hp b) ∧
    ((b.view hp).Data.length < (a.view hp).Data.length →
      a.ConcatMem grow hp b = .error Panic.indexOutOfRange) ∧
    ((a.view hp).Data.length ≤ (b.view hp).Data.length →
      (∀ s ∈ a.planes hp, s.ValidIn hp.mem) → (∀ t ∈ b.planes hp, t.ValidIn hp.mem) →
      ∃ out hp2, a.ConcatMem grow hp b = .ok (out, hp2) ∧
        (out.view hp2).SampleCount = intAdd (a.view hp).SampleCount (b.view hp).SampleCount ∧
        (out.view hp2).SampleRate = (a.view hp).SampleRate ∧
        (out.view hp2).SampleFormat = (a.view hp).SampleFormat ∧
        (out.view hp2).ChannelLayout = (a.view hp).ChannelLayout ∧
        (out.view hp2).Data.length = (a.view hp).Data.length ∧
        (out.view hp2).Data.map (fun p => p.bytes.length) =
          List.zipWith (fun p q => p.bytes.length + q.bytes.length) (a.view hp).Data
            (b.view hp).Data ∧
        (Separate (a.planes hp) (b.planes hp) →
          (out.view hp2).Data.map ByteSlice.bytes =
            List.zipWith (fun p q => p.bytes ++ q.bytes) (a.view hp).Data (b.view hp).Data)) := by
  have hla : (a.view hp).Data.length = (a.planes hp).length := by simp [FrameRef.view]
  have hlb : (b.view hp).Data.length = (b.planes hp).length := by simp [FrameRef.view]
  refine ⟨fun r v l => rfl, fun hlt => ?_, fun hle hva hvb => ?_⟩
  · have := concatLoopMem_error grow (a.planes hp) (b.planes hp) hp.mem (by omega)
    simp only [FrameRef.ConcatMem, this]
  · exact concatMem_result grow hp a b (by omega) hva hvb

/-- C3 (amended) at a planar S16 frame and a frame that differs from it in
sample format only: the call returns the same as for the frame of the same
format, a frame of 4 samples of format S16P. -/
theorem concat_ignores_format_witness :
    (refSharedA.view heapSeparate).HasSameFormat
      (FrameRef.view heapSeparate { refSharedB with SampleFormat := DBLP }) = false ∧
    refSharedA.ConcatMem growDouble heapSeparate { refSharedB with SampleFormat := DBLP } =
      refSharedA.ConcatMem growDouble heapSeparate refSharedB ∧
    ∃ out hp2,
      refSharedA.ConcatMem growDouble heapSeparate { refSharedB with SampleFormat := DBLP } =
        .ok (out, hp2) ∧
      (out.view hp2).SampleCount = 4 ∧ (out.view hp2).SampleFormat = S16P ∧
      (out.view hp2).Data.map ByteSlice.bytes =
        [[0, 1, 2, 3, 104, 105, 106, 107], [8, 9, 10, 11, 200, 201, 202, 203]] := by
  obtain ⟨h1, _, h3⟩ := concat_ignores_format growDouble heapSeparate refSharedA
    { refSharedB with SampleFormat := DBLP }
  obtain ⟨out, hp2, e1, e2, _, e4, _, _, _, e8⟩ := h3 (by decide) (by decide) (by decide)
  exact ⟨by decide, h1 8000 S16P CH_STEREO, out, hp2, e1, by rw [e2]; decide,
    by rw [e4]; decide, by rw [e8 (by decide)]; decide⟩

/-- C5 (as the code behaves): concatenating a frame with two planes to a frame
with one plane returns a frame with one plane; the second plane of the
argument is dropped without an error. -/
theorem concat_extra_planes_counterexample :
    (refSharedA.view heapOnePlane).Data.length = 1 ∧
    (refSharedB.view heapOnePlane).Data.length = 2 ∧
    (refSharedA.ConcatMem growDouble heapOnePlane refSharedB).map
        (fun r => ((r.1.view r.2).SampleCount, (r.1.view r.2).Data.map ByteSlice.bytes)) =
      .ok (4, [[0, 1, 2, 3, 104, 105, 106, 107]]) := by
  decide

/-- C5 (amended): for frames in memory with different numbers of planes: when
`b` has fewer planes than `a`, `Concat` fails, with an index-out-of-range
panic; when `b` has more planes than `a`, the planes of `b` behind those of
`a` play no part in the loop, and for valid plane headers the call returns a
frame with as many planes as `a`, plane `i` of the length of plane `i` of `a`
plus that of plane `i` of `b` and, when no in-place append stores into another
plane, with the bytes of plane `i` of `a` followed by those of plane `i` of
`b`. -/
theorem concat_plane_mismatch (grow : Nat → Nat → Nat) (hp : Heap) (a b : FrameRef)
    (h : (a.view hp).Data.length ≠ (b.view hp).Data.length) :
    ((b.view hp).Data.length < (a.view hp).Data.length ∧
      a.ConcatMem grow hp b = .error Panic.indexOutOfRange) ∨
    ((a.view hp).Data.length < (b.view hp).Data.length ∧
      concatLoopMem grow (a.planes hp) ((b.planes hp).take (a.planes hp).length) hp.mem =
        concatLoopMem grow (a.planes hp) (b.planes hp) hp.mem ∧
      ((∀ s ∈ a.planes hp, s.ValidIn hp.mem) → (∀ t ∈ b.planes hp, t.ValidIn hp.mem) →
        ∃ out hp2, a.ConcatMem grow hp b = .ok (out, hp2) ∧
          (out.view hp2).Data.length = (a.view hp).Data.length ∧
          (out.view hp2).Data.map (fun p => p.bytes.length) =
            List.zipWith (fun p q => p.bytes.length + q.bytes.length) (a.view hp).Data
              ((b.view hp).Data.take (a.view hp).Data.length) ∧
          (Separate (a.planes hp) (b.planes hp) →
            (out.view hp2).Data.map ByteSlice.bytes =
              List.zipWith (fun p q => p.bytes ++ q.bytes) (a.view hp).Data
                ((b.view hp).Data.take (a.view hp).Data.length)))) := by
  have hla : (a.view hp).Data.length = (a.planes hp).length := by simp [FrameRef.view]
  have hlb : (b.view hp).Data.length = (b.planes hp).length := by simp [FrameRef.view]
  rcases Nat.lt_or_gt_of_ne h with hlt | hgt
  · right
    refine ⟨hlt, concatLoopMem_take grow _ _ _, fun hva hvb => ?_⟩
    obtain ⟨out, hp2, h1, _, _, _, _, h6, h7, h8⟩ :=
      concatMem_result grow hp a b (by omega) hva hvb
    refine ⟨out, hp2, h1, h6, ?_, fun hsep => ?_⟩
    · rw [h7, zipWith_take_right]
    · rw [h8 hsep, zipWith_take_right]
  · left
    refine ⟨hgt, ?_⟩
    have := concatLoopMem_error grow (a.planes hp) (b.planes hp) hp.mem (by omega)
    simp only [FrameRef.ConcatMem, this]

/-- C5 (amended) at a frame with two planes and an argument with one, where
the call fails, and at a frame with one plane and an argument with two, where
it returns a frame with one plane. -/
theorem concat_plane_mismatch_witness :
    ((refSharedB.view heapOnePlane).Data.length ≠ (refSharedA.view heapOnePlane).Data.length ∧
      refSharedB.ConcatMem growDouble heapOnePlane refSharedA = .error Panic.indexOutOfRange) ∧
    ∃ out hp2, refSharedA.ConcatMem growDouble heapOnePlane refSharedB = .ok (out, hp2) ∧
      (out.view hp2).Data.map ByteSlice.bytes = [[0, 1, 2, 3, 104, 105, 106, 107]] := by
  constructor
  · refine ⟨by decide, ?_⟩
    rcases concat_plane_mismatch growDouble heapOnePlane refSharedB refSharedA (by decide)
      with h | h
    · exact h.2
    · exact absurd h.1 (by decide)
  · rcases concat_plane_mismatch growDouble heapOnePlane refSharedA refSharedB (by decide)
      with h | h
    · exact absurd h.1 (by decide)
    · obtain ⟨out, hp2, e1, _, _, e4⟩ := h.2.2 (by decide) (by decide)
      exact ⟨out, hp2, e1, by rw [e4 (by decide)]; decide⟩

/-! ## Frames in memory and frame values

`Slice` reads and writes no byte, so on the frame a struct denotes it is the
`Slice` of frame values; `Concat` is the `Concat` of frame values where no
in-place append stores into another plane. -/

theorem view_cap (mem : List Byte) (h : SliceHdr) (hv : h.ValidIn mem) :
    (h.view mem).cap = h.cap := by
  obtain ⟨h1, h2⟩ := hv
  unfold ByteSlice.cap SliceHdr.view
  simp only
  rw [length_readAt mem _ _ (by omega), length_readAt mem _ _ (by omega)]
  omega

theorem view_backing (mem : List Byte) (h : SliceHdr) (hv : h.ValidIn mem) :
    (h.view mem).backing = readAt mem h.ptr h.cap := by
  obtain ⟨h1, h2⟩ := hv
  unfold ByteSlice.backing SliceHdr.view
  simp only
  rw [← readAt_add]
  congr 1
  omega

/-- The window of the value a header denotes is the value of the sliced
header. -/
theorem window_view (mem : List Byte) (h : SliceHdr) (lo hi : Nat) (hv : h.ValidIn mem)
    (h1 : lo ≤ hi) (h2 : hi ≤ h.cap) :
    (h.view mem).window lo hi =
      SliceHdr.view mem { ptr := h.ptr + lo, len := hi - lo, cap := h.cap - lo } := by
  have hb := view_backing mem h hv
  show ByteSlice.mk (((h.view mem).backing.take hi).drop lo) ((h.view mem).backing.drop hi) =
    ByteSlice.mk (readAt mem (h.ptr + lo) (hi - lo))
      (readAt mem (h.ptr + lo + (hi - lo)) (h.cap - lo - (hi - lo)))
  rw [hb]
  have e1 : ((readAt mem h.ptr h.cap).take hi).drop lo = readAt mem (h.ptr + lo) (hi - lo) := by
    unfold readAt
    rw [List.take_take, Nat.min_eq_left h2, List.drop_take, List.drop_drop]
  have e2 : (readAt mem h.ptr h.cap).drop hi =
      readAt mem (h.ptr + lo + (hi - lo)) (h.cap - lo - (hi - lo)) := by
    have a1 : h.ptr + lo + (hi - lo) = h.ptr + hi := by omega
    have a2 : h.cap - lo - (hi - lo) = h.cap - hi := by omega
    rw [a1, a2]
    unfold readAt
    rw [List.drop_take, List.drop_drop]
  rw [e1, e2]

/-- The slice expression on the value a header denotes. -/
theorem sliceExpr_view (mem : List Byte) (h : SliceHdr) (lo hi : Int) (hv : h.ValidIn mem) :
    sliceExpr (h.view mem) lo hi = (sliceHdr h lo hi).map (SliceHdr.view mem) := by
  unfold sliceExpr sliceHdr
  rw [view_cap mem h hv]
  by_cases hc : 0 ≤ lo ∧ lo ≤ hi ∧ hi ≤ (h.cap : Int)
  · rw [if_pos hc, if_pos hc]
    show Except.ok _ = Except.ok _
    rw [window_view mem h _ _ hv (by omega) (by omega)]
  · rw [if_neg hc, if_neg hc]
    rfl

/-- A sliced header is valid where the header was. -/
theorem sliceHdr_valid (mem : List Byte) (h r : SliceHdr) (lo hi : Int) (hv : h.ValidIn mem)
    (hr : sliceHdr h lo hi = .ok r) : r.ValidIn mem := by
  obtain ⟨h1, h2⟩ := hv
  unfold sliceHdr at hr
  split_ifs at hr with hc
  injection hr with hr
  subst hr
  constructor
  · show hi.toNat - lo.toNat ≤ h.cap - lo.toNat
    omega
  · show h.ptr + lo.toNat + (h.cap - lo.toNat) ≤ mem.length
    omega

/-- The slicing loop on the values the headers denote. -/
theorem sliceLoop_view (mem : List Byte) (lo hi : Int) :
    ∀ hs : List SliceHdr, (∀ h ∈ hs, h.ValidIn mem) →
      sliceLoop lo hi (hs.map (SliceHdr.view mem)) =
        (sliceLoopMem lo hi hs).map (List.map (SliceHdr.view mem)) := by
  intro hs
  induction hs with
  | nil => intro _; rfl
  | cons h hs ih =>
    intro hv
    have e := sliceExpr_view mem h lo hi (hv h (List.mem_cons_self h hs))
    have ihs := ih (fun x hx => hv x (List.mem_cons_of_mem h hx))
    simp only [List.map_cons, sliceLoop, sliceLoopMem, e, ihs]
    cases sliceHdr h lo hi with
    | error e => rfl
    | ok r =>
      cases sliceLoopMem lo hi hs with
      | error e => rfl
      | ok rs => rfl

theorem sliceLoopMem_length (lo hi : Int) :
    ∀ (hs rs : List SliceHdr), sliceLoopMem lo hi hs = .ok rs → rs.length = hs.length := by
  intro hs
  induction hs with
  | nil =>
    intro rs h
    simp only [sliceLoopMem] at h
    injection h with h
    subst h
    rfl
  | cons h hs ih =>
    intro rs hr
    simp only [sliceLoopMem] at hr
    split at hr
    · cases hr
    · split at hr
      · cases hr
      · rename_i rs1 hloop
        injection hr with hr
        subst hr
        simp only [List.length_cons, ih rs1 hloop]

/-- Coherence of `Slice`: on a frame in memory it returns a struct that
denotes the frame `Slice` returns on the frame the receiver denotes. -/
theorem sliceMem_view (hp : Heap) (r : FrameRef) (start end_ : Int)
    (hv : ∀ h ∈ r.planes hp, h.ValidIn hp.mem) :
    (r.SliceMem hp start end_).map (fun x => x.1.view x.2) = (r.view hp).Slice start end_ := by
  have hloop := sliceLoop_view hp.mem (intMul start r.SampleFormat.BytesPerSample)
    (intMul end_ r.SampleFormat.BytesPerSample) (r.planes hp) hv
  have hval : (r.view hp).Slice start end_ =
      match sliceLoop (intMul start r.SampleFormat.BytesPerSample)
          (intMul end_ r.SampleFormat.BytesPerSample)
          ((r.planes hp).map (SliceHdr.view hp.mem)) with
      | .error e => .error e
      | .ok planes => .ok { r.view hp with SampleCount := intSub end_ start, Data := planes } :=
    rfl
  rw [hval, hloop]
  unfold FrameRef.SliceMem
  simp only
  cases hs : sliceLoopMem (intMul start r.SampleFormat.BytesPerSample)
      (intMul end_ r.SampleFormat.BytesPerSample) (r.planes hp) with
  | error e => rfl
  | ok rs =>
    have hl := sliceLoopMem_length _ _ _ rs hs
    show Except.ok _ = Except.ok _
    congr 1
    unfold FrameRef.view FrameRef.planes
    simp only
    rw [getD_set_planes hp.hdrs r.Data rs hl]

/-- Coherence of `Concat`: on frames in memory, where no in-place append
stores into another plane, it returns a struct that denotes what `Concat`
returns on the frames the operands denote: the same fields and the same bytes
in every plane. -/
theorem concatMem_value (grow : Nat → Nat → Nat) (hp : Heap) (a b : FrameRef)
    (hlen : (a.planes hp).length ≤ (b.planes hp).length)
    (hva : ∀ s ∈ a.planes hp, s.ValidIn hp.mem) (hvb : ∀ t ∈ b.planes hp, t.ValidIn hp.mem)
    (hsep : Separate (a.planes hp) (b.planes hp)) :
    ∃ out hp2 v, a.ConcatMem grow hp b = .ok (out, hp2) ∧
      (a.view hp).Concat (b.view hp) = .ok v ∧
      (out.view hp2).SampleRate = v.SampleRate ∧ (out.view hp2).SampleFormat = v.SampleFormat ∧
      (out.view hp2).ChannelLayout = v.ChannelLayout ∧
      (out.view hp2).SampleCount = v.SampleCount ∧
      (out.view hp2).Data.map ByteSlice.bytes = v.Data.map ByteSlice.bytes := by
  obtain ⟨out, hp2, h1, h2, h3, h4, h5, _, _, h8⟩ := concatMem_result grow hp a b hlen hva hvb
  have hv := concat_ok (a.view hp) (b.view hp) (by simpa [FrameRef.view] using hlen)
  refine ⟨out, hp2, _, h1, hv, h3, h4, h5, h2, ?_⟩
  rw [h8 hsep]
  exact (zipWith_appendBytes_bytes _ _).symm

/-- The planes a struct denotes in the store of a memory are those it denotes
in the memory. -/
theorem read_store (hp : Heap) (r : FrameRef) : r.read hp.store = r.view hp := by
  unfold FrameRef.read FrameRef.view FrameRef.planes Heap.store
  congr 1
  exact List.getD_map hp.hdrs [] (List.map (SliceHdr.view hp.mem))

/-- Coherence of the two memories: `Slice` on a frame in memory, seen through
the values the headers denote, is `Slice` on the store of that memory: the
same struct is returned and the same planes are stored in the array of plane
headers. -/
theorem sliceMem_store (hp : Heap) (r : FrameRef) (start end_ : Int)
    (hv : ∀ h ∈ r.planes hp, h.ValidIn hp.mem) :
    (r.SliceMem hp start end_).map (fun x => (x.1, x.2.store)) =
      r.Slice hp.store start end_ := by
  have hloop := sliceLoop_view hp.mem (intMul start r.SampleFormat.BytesPerSample)
    (intMul end_ r.SampleFormat.BytesPerSample) (r.planes hp) hv
  have hget : hp.store.getD r.Data [] = (r.planes hp).map (SliceHdr.view hp.mem) := by
    unfold FrameRef.planes Heap.store
    exact List.getD_map hp.hdrs [] (List.map (SliceHdr.view hp.mem))
  unfold FrameRef.Slice FrameRef.SliceMem
  simp only [hget, hloop]
  cases sliceLoopMem (intMul start r.SampleFormat.BytesPerSample)
      (intMul end_ r.SampleFormat.BytesPerSample) (r.planes hp) with
  | error e => rfl
  | ok rs =>
    show Except.ok _ = Except.ok _
    congr 2
    unfold Heap.store
    simp only [List.map_set]

/-! ## Well-formed results in memory -/

/-- Lengths that are plane by plane the sum of two uniform lengths. -/
theorem lengths_of_map_eq_zipWith (m n : Int) :
    ∀ (l ps qs : List ByteSlice),
      l.map (fun p => p.bytes.length) =
        List.zipWith (fun p q => p.bytes.length + q.bytes.length) ps qs →
      (∀ p ∈ ps, (p.bytes.length : Int) = m) → (∀ q ∈ qs, (q.bytes.length : Int) = n) →
      ∀ r ∈ l, (r.bytes.length : Int) = m + n := by
  intro l
  induction l with
  | nil => intro ps qs _ _ _ r hr; cases hr
  | cons x xs ih =>
    intro ps qs h hp hq r hr
    cases ps with
    | nil => simp at h
    | cons p ps =>
      cases qs with
      | nil => simp at h
      | cons q qs =>
        simp only [List.map_cons, List.zipWith_cons_cons, List.cons.injEq] at h
        rcases List.mem_cons.mp hr with rfl | hr
        · rw [h.1]
          push_cast
          rw [hp p (List.mem_cons_self p ps), hq q (List.mem_cons_self q qs)]
        · exact ih ps qs h.2 (fun y hy => hp y (List.mem_cons_of_mem p hy))
            (fun y hy => hq y (List.mem_cons_of_mem q hy)) r hr

/-- A frame whose sample count is the Go sum of two counts and whose planes
all have the mathematical sum of samples is well-formed when that sum is an
`int`, and so whenever the frame is a Go value. -/
theorem wellFormed_of_lengths (out : AudioFrame) (m n : Int)
    (hcnt : out.SampleCount = intAdd m n)
    (hlen : ∀ r ∈ out.Data, (r.bytes.length : Int) = (m + n) * out.SampleFormat.BytesPerSample) :
    (IsInt (m + n) → out.WellFormed) ∧ (out.Representable → out.WellFormed) := by
  constructor
  · intro hint r hr
    rw [hlen r hr, hcnt]
    unfold intAdd
    rw [wrapInt_of_range _ hint.1 hint.2]
  · intro hrep r hr
    have hl := hlen r hr
    rw [hl, hcnt]
    have hsa := (bytesPerSample_range out.SampleFormat).1
    rcases eq_or_lt_of_le hsa with hz | hpos
    · rw [← hz, mul_zero, mul_zero]
    · have hcap : IsInt (r.cap : Int) := hrep.2.2.2.2 r hr
      have hle : (r.bytes.length : Int) ≤ (r.cap : Int) := by
        unfold ByteSlice.cap; push_cast; omega
      have hnn : 0 ≤ m + n := by
        apply le_of_mul_le_mul_right _ hpos
        rw [zero_mul, ← hl]
        exact Int.natCast_nonneg _
      have hup : m + n ≤ (m + n) * out.SampleFormat.BytesPerSample := by
        have := mul_le_mul_of_nonneg_left
          (show (1 : Int) ≤ out.SampleFormat.BytesPerSample from hpos) hnn
        rwa [mul_one] at this
      have hlt := hcap.2
      unfold intAdd
      rw [wrapInt_of_range _ (by omega) (by omega)]

/-- Well-formedness in memory: `Concat` on well-formed frames of one format
and number of planes, whatever storage their planes share, returns a frame
whose planes all have the sum of the two sample counts in samples. -/
theorem concatMem_wellFormed (grow : Nat → Nat → Nat) (hp : Heap) (x y : FrameRef)
    (ha : (x.view hp).WellFormed) (hb : (y.view hp).WellFormed)
    (hfmt : (x.view hp).HasSameFormat (y.view hp) = true)
    (hplanes : (x.view hp).Data.length = (y.view hp).Data.length)
    (hva : ∀ s ∈ x.planes hp, s.ValidIn hp.mem) (hvb : ∀ t ∈ y.planes hp, t.ValidIn hp.mem) :
    ∃ out hp2, x.ConcatMem grow hp y = .ok (out, hp2) ∧
      (∀ r ∈ (out.view hp2).Data, (r.bytes.length : Int) =
        ((x.view hp).SampleCount + (y.view hp).SampleCount) *
          (x.view hp).SampleFormat.BytesPerSample) ∧
      (IsInt ((x.view hp).SampleCount + (y.view hp).SampleCount) → (out.view hp2).WellFormed) ∧
      ((out.view hp2).Representable → (out.view hp2).WellFormed) := by
  obtain ⟨out, hp2, h1, h2, _, h4, _, _, h7, _⟩ :=
    concatMem_result grow hp x y (by simpa [FrameRef.view] using le_of_eq hplanes) hva hvb
  have hbfmt : ∀ q ∈ (y.view hp).Data, (q.bytes.length : Int) =
      (y.view hp).SampleCount * (x.view hp).SampleFormat.BytesPerSample := by
    intro q hq
    rw [hasSameFormat_format _ _ hfmt]
    exact hb q hq
  have hlen : ∀ r ∈ (out.view hp2).Data, (r.bytes.length : Int) =
      ((x.view hp).SampleCount + (y.view hp).SampleCount) *
        (x.view hp).SampleFormat.BytesPerSample := by
    intro r hr
    rw [lengths_of_map_eq_zipWith _ _ _ _ _ h7 ha hbfmt r hr, add_mul]
  have hw := wellFormed_of_lengths (out.view hp2) _ _ h2 (by rw [h4]; exact hlen)
  exact ⟨out, hp2, h1, hlen, hw.1, hw.2⟩

/-- C16: `Slice` and `Concat` return well-formed frames for well-formed
operands. For a well-formed `f` and `0 <= start <= end <= f.SampleCount` the
frame `f.Slice(start,end)` is well-formed. For well-formed `a`, `b` of the
same format and number of planes every plane of `a.Concat(b)` has
`(a.SampleCount + b.SampleCount) * BytesPerSample` bytes, so the returned
frame is well-formed whenever that sum is an `int`, which it is whenever the
returned frame is a Go value. The same holds for the calls run in memory on
structs that denote `f`, `a` and `b`, whatever storage the planes share. -/
theorem wellFormed_preserved (f a b : AudioFrame) (start end_ : Int)
    (hf : f.Representable) (hwf : f.WellFormed)
    (hs : 0 ≤ start) (hse : start ≤ end_) (hec : end_ ≤ f.SampleCount)
    (ha : a.WellFormed) (hb : b.WellFormed)
    (hfmt : a.HasSameFormat b = true) (hplanes : a.Data.length = b.Data.length) :
    (∃ out, f.Slice start end_ = .ok out ∧ out.WellFormed) ∧
    (∃ out, a.Concat b = .ok out ∧
      (∀ r ∈ out.Data, (r.bytes.length : Int) =
        (a.SampleCount + b.SampleCount) * a.SampleFormat.BytesPerSample) ∧
      (IsInt (a.SampleCount + b.SampleCount) → out.WellFormed) ∧
      (out.Representable → out.WellFormed)) ∧
    (∀ (grow : Nat → Nat → Nat) (hp : Heap) (x y : FrameRef),
      x.view hp = a → y.view hp = b →
      (∀ s ∈ x.planes hp, s.ValidIn hp.mem) → (∀ t ∈ y.planes hp, t.ValidIn hp.mem) →
      ∃ out hp2, x.ConcatMem grow hp y = .ok (out, hp2) ∧
        (∀ r ∈ (out.view hp2).Data, (r.bytes.length : Int) =
          (a.SampleCount + b.SampleCount) * a.SampleFormat.BytesPerSample) ∧
        (IsInt (a.SampleCount + b.SampleCount) → (out.view hp2).WellFormed) ∧
        ((out.view hp2).Representable → (out.view hp2).WellFormed)) ∧
    (∀ (hp : Heap) (r : FrameRef), r.view hp = f →
      (∀ h ∈ r.planes hp, h.ValidIn hp.mem) →
      ∃ g hp1, r.SliceMem hp start end_ = .ok (g, hp1) ∧ (g.view hp1).WellFormed) := by
  have hold :
      (∃ out, f.Slice start end_ = .ok out ∧ out.WellFormed) ∧
      (∃ out, a.Concat b = .ok out ∧
        (∀ r ∈ out.Data, (r.bytes.length : Int) =
          (a.SampleCount + b.SampleCount) * a.SampleFormat.BytesPerSample) ∧
        (IsInt (a.SampleCount + b.SampleCount) → out.WellFormed) ∧
        (out.Representable → out.WellFormed)) := by
    have hsize := (bytesPerSample_range f.SampleFormat).1
    have h0 : 0 ≤ start * f.SampleFormat.BytesPerSample := mul_nonneg hs hsize
    have h1 : start * f.SampleFormat.BytesPerSample ≤ end_ * f.SampleFormat.BytesPerSample :=
      mul_le_mul_of_nonneg_right hse hsize
    have h2 : end_ * f.SampleFormat.BytesPerSample ≤
        f.SampleCount * f.SampleFormat.BytesPerSample := mul_le_mul_of_nonneg_right hec hsize
    have hlen : ∀ p ∈ f.Data,
        end_ * f.SampleFormat.BytesPerSample ≤ (p.bytes.length : Int) := by
      intro p hp; rw [hwf p hp]; exact h2
    have hsum : ∀ r ∈ List.zipWith (fun p q => appendBytes p q.bytes) a.Data b.Data,
        (r.bytes.length : Int) =
          (a.SampleCount + b.SampleCount) * a.SampleFormat.BytesPerSample := by
      intro r hr
      have hbfmt : ∀ q ∈ b.Data,
          (q.bytes.length : Int) = b.SampleCount * a.SampleFormat.BytesPerSample := by
        intro q hq; rw [hasSameFormat_format a b hfmt]; exact hb q hq
      rw [zipWith_appendBytes_length _ _ a.Data b.Data ha hbfmt r hr, add_mul]
    refine ⟨⟨_, slice_value f start end_ hf hs hse hec hlen, ?_⟩,
      ⟨_, concat_ok a b (le_of_eq hplanes), hsum, fun hint => ?_, fun hrep => ?_⟩⟩
    · intro q hq
      obtain ⟨p, hp, rfl⟩ := List.mem_map.mp hq
      have hl := hlen p hp
      rw [window_bytes_length p _ _ (by omega)]
      show _ = (end_ - start) * f.SampleFormat.BytesPerSample
      rw [sub_mul]
      omega
    · intro r hr
      show _ = intAdd a.SampleCount b.SampleCount * a.SampleFormat.BytesPerSample
      rw [hsum r hr]
      unfold intAdd
      rw [wrapInt_of_range _ hint.1 hint.2]
    · intro r hr
      show _ = intAdd a.SampleCount b.SampleCount * a.SampleFormat.BytesPerSample
      have hl := hsum r hr
      rw [hl]
      have hsa := (bytesPerSample_range a.SampleFormat).1
      rcases eq_or_lt_of_le hsa with hz | hpos
      · rw [← hz, mul_zero, mul_zero]
      · have hcap : IsInt (r.cap : Int) := hrep.2.2.2.2 r hr
        have hle : (r.bytes.length : Int) ≤ (r.cap : Int) := by
          unfold ByteSlice.cap; push_cast; omega
        have hnn : 0 ≤ a.SampleCount + b.SampleCount := by
          apply le_of_mul_le_mul_right _ hpos
          rw [zero_mul, ← hl]
          exact Int.natCast_nonneg _
        have hup : a.SampleCount + b.SampleCount ≤
            (a.SampleCount + b.SampleCount) * a.SampleFormat.BytesPerSample := by
          have := mul_le_mul_of_nonneg_left (show (1 : Int) ≤ a.SampleFormat.BytesPerSample from hpos)
            hnn
          rwa [mul_one] at this
        have hlt := hcap.2
        unfold intAdd
        rw [wrapInt_of_range _ (by omega) (by omega)]
  refine ⟨hold.1, hold.2, ?_, ?_⟩
  · intro grow hp x y hx hy hva hvb
    subst hx hy
    exact concatMem_wellFormed grow hp x y ha hb hfmt hplanes hva hvb
  · intro hp r hr hv
    subst hr
    obtain ⟨out, hout, hwfo⟩ := hold.1
    have hsl := sliceMem_view hp r start end_ hv
    rw [hout] at hsl
    cases hres : r.SliceMem hp start end_ with
    | error e => rw [hres] at hsl; cases hsl
    | ok res =>
      rw [hres] at hsl
      injection hsl with hsl
      have hsl2 : res.1.view res.2 = out := hsl
      exact ⟨res.1, res.2, rfl, by rw [hsl2]; exact hwfo⟩

/-- C16 at `Slice(2,5)` of the 10-sample frame, at the concatenation of the
10-sample and the 5-sample frame, and at the concatenation in memory of two
frames of which the first has its planes in one buffer. -/
theorem wellFormed_preserved_witness :
    frame10.WellFormed ∧ frame5.WellFormed ∧
    (∃ out, frame10.Slice 2 5 = .ok out ∧ out.WellFormed) ∧
    (∃ out, frame10.Concat frame5 = .ok out ∧ out.WellFormed) := by
  obtain ⟨h1, ⟨out, h2, _, h3, _⟩, _, _⟩ :=
    wellFormed_preserved frame10 frame10 frame5 2 5 (by decide) (by decide) (by decide)
      (by decide) (by decide) (by decide) (by decide) (by decide) (by decide)
  exact ⟨by decide, by decide, h1, out, h2, h3 (by decide)⟩

/-- C16 in memory, at two well-formed planar frames of which the first has its
planes in one buffer: the frame `Concat` returns is well-formed. -/
theorem wellFormed_shared_buffer :
    (refSharedA.view heapShared).WellFormed ∧ (refSharedB.view heapShared).WellFormed ∧
    ∃ out hp2, refSharedA.ConcatMem growDouble heapShared refSharedB = .ok (out, hp2) ∧
      (out.view hp2).WellFormed := by
  obtain ⟨out, hp2, h1, _, h3, _⟩ :=
    concatMem_wellFormed growDouble heapShared refSharedA refSharedB (by decide) (by decide)
      (by decide) (by decide) (by decide) (by decide)
  exact ⟨by decide, by decide, out, hp2, h1, h3 (by decide)⟩

/-! ## Splitting and rejoining in memory -/

/-- C17 (as the code behaves): in `f.Slice(0,4).Concat(f.Slice(4,10))` on the
well-formed 10-sample S16 frame both slices share the array of plane headers
of `f`, so the second `Slice` also replaces the planes of the first result,
and the program yields a frame of 10 samples whose plane is the bytes at
offsets 8 to 19 twice, 24 bytes, not the 20 bytes of `f`. The program run in
memory yields the same, for every allocation policy. -/
theorem split_join_repeats_tail :
    frame10.WellFormed ∧ ref10.read store10 = frame10 ∧
    frame10.Data.map ByteSlice.bytes =
      [[0, 1, 2, 3, 4, 5, 6, 7, 8, 9, 10, 11, 12, 13, 14, 15, 16, 17, 18, 19]] ∧
    (splitJoin store10 ref10 4 10).map (fun r => (r.SampleCount, r.Data.map ByteSlice.bytes)) =
      .ok (10, [[8, 9, 10, 11, 12, 13, 14, 15, 16, 17, 18, 19,
        8, 9, 10, 11, 12, 13, 14, 15, 16, 17, 18, 19]]) ∧
    ref10.view heap10 = frame10 ∧
    ∀ grow : Nat → Nat → Nat,
      (splitJoinMem grow heap10 ref10 4 10).map
          (fun r => (r.SampleCount, r.Data.map ByteSlice.bytes)) =
        .ok (10, [[8, 9, 10, 11, 12, 13, 14, 15, 16, 17, 18, 19,
          8, 9, 10, 11, 12, 13, 14, 15, 16, 17, 18, 19]]) :=
  ⟨by decide, by decide, by decide, by decide, by decide, fun _ => rfl⟩

end Av
